import Mathlib

/-!
Verification of the asynchronous execution-queue model described by the
d2l `async-computation` chapter. The repository is documentation: the
scheduler it describes (frontend handles, dependency tracker, backend
FIFO queue, blocking barriers) is an external framework internal, so the
whole system below is modelled from the specification text and every
claim is settled against that model.
-/

namespace AsyncModel

/-- Modelled from the spec: task status, `status ∈ {pending, ready,
running, done, failed}` (spec section 3, Data model). -/
inductive Status where
  | pending
  | ready
  | running
  | done
  | failed
deriving DecidableEq, Repr

/-- Modelled from the spec: the error taxonomy of section 7,
`TaskFailure` (the operation body threw) and `DependencyFailure`
(an ancestor task failed, propagated without re-execution). -/
inductive TaskError where
  | taskFailure : String → TaskError
  | dependencyFailure : TaskError
deriving DecidableEq, Repr

/-- Modelled from the spec: a Task is `{id, operation closure, set of
input handles, output handle, status}` (section 3). The operation is a
tagged function-object capability `inputs -> Result | Error`
(section 9); `result` is the cached result or error stored on the
associated handle, and `executed` records whether the operation body
ever ran (needed to state that dependency failures never execute the
body). Input handles are recorded by task id. -/
structure Task where
  id : Nat
  op : List Int → Except String Int
  inputs : List Nat
  status : Status
  result : Option (Except TaskError Int)
  executed : Bool

/-- Modelled from the spec: a Handle is a lightweight future-like
reference to a task eventual result (sections 3 and 4.3); the resolved
flag and cached value live on the referenced task entry. -/
structure Handle where
  tid : Nat
deriving DecidableEq, Repr

/-- Modelled from the spec: the execution context (section 9): the
task table (task `i` lives at index `i`), the backend FIFO queue of
ready task ids, and an execution log recording the order in which
workers started (and, in this sequential embedding, completed) tasks. -/
structure SchedState where
  tasks : List Task
  queue : List Nat
  log : List Nat

/-- The empty execution context: no tasks submitted yet. -/
def initState : SchedState := ⟨[], [], []⟩

def taskAt (s : SchedState) (i : Nat) : Option Task := s.tasks[i]?

def statusOf (s : SchedState) (i : Nat) : Option Status :=
  (taskAt s i).map Task.status

def resultOf (s : SchedState) (i : Nat) : Option (Except TaskError Int) :=
  (taskAt s i).bind Task.result

/-- Handle `i` is resolved: its task finished successfully. -/
def isDone (s : SchedState) (i : Nat) : Bool :=
  match taskAt s i with
  | some t => t.status = Status.done
  | none => false

/-- Handle `i` is failed. -/
def isFailed (s : SchedState) (i : Nat) : Bool :=
  match taskAt s i with
  | some t => t.status = Status.failed
  | none => false

/-- Handle `i` is settled: resolved or failed. -/
def isSettled (s : SchedState) (i : Nat) : Bool :=
  isDone s i || isFailed s i

/-- Modelled from the spec: `submit(operation, inputs) -> Handle`
(section 4.1). Registers a new Task referencing the input handles. If
an input is already `failed` the task is immediately marked `failed`
with a dependency failure (failure propagates, never silently
skipped); if all inputs are already resolved the task is marked
`ready` and handed to the queue; otherwise it is stored `pending`.
Returns the new state together with the fresh Handle, synchronously:
no queued operation is executed here. -/
def submit (s : SchedState) (op : List Int → Except String Int)
    (ins : List Handle) : SchedState × Handle :=
  let id := s.tasks.length
  let inIds := ins.map Handle.tid
  if inIds.any (fun j => isFailed s j) then
    ({ s with tasks := s.tasks ++
        [⟨id, op, inIds, Status.failed,
          some (Except.error TaskError.dependencyFailure), false⟩] },
     ⟨id⟩)
  else if inIds.all (fun j => isDone s j) then
    ({ s with
        tasks := s.tasks ++ [⟨id, op, inIds, Status.ready, none, false⟩],
        queue := s.queue ++ [id] },
     ⟨id⟩)
  else
    ({ s with tasks := s.tasks ++
        [⟨id, op, inIds, Status.pending, none, false⟩] },
     ⟨id⟩)

/-- The resolved values of a list of input handles, when all of them
are resolved. -/
def inputVals (s : SchedState) : List Nat → Option (List Int)
  | [] => some []
  | j :: js =>
    match resultOf s j, inputVals s js with
    | some (Except.ok v), some vs => some (v :: vs)
    | _, _ => none

/-- The outcome of running the operation body of `t` on the input
values `vs`: the value, or a `TaskFailure` wrapping the thrown error. -/
def runOp (t : Task) (vs : List Int) : Except TaskError Int :=
  match t.op vs with
  | Except.ok v => Except.ok v
  | Except.error e => Except.error (TaskError.taskFailure e)

/-- The task entry after its operation body ran on input values `vs`:
`done` with the value, or `failed` with the `TaskFailure`. -/
def execedTask (t : Task) (vs : List Int) : Task :=
  { t with
      status := match runOp t vs with
                | Except.ok _ => Status.done
                | Except.error _ => Status.failed,
      result := some (runOp t vs),
      executed := true }

/-- The task entry after a dependency failure was propagated to it:
`failed` with a `DependencyFailure`, its body never executed. -/
def depFailedTask (t : Task) : Task :=
  { t with status := Status.failed,
           result := some (Except.error TaskError.dependencyFailure) }

/-- Modelled from the spec: the worker executes one task (section 4.2):
it runs the operation body on the resolved input values, then marks the
handle `done` with the result, or `failed` with a `TaskFailure` if the
body threw. The task id is appended to the execution log. -/
def execTask (s : SchedState) (i : Nat) : SchedState :=
  match taskAt s i with
  | none => s
  | some t =>
    match inputVals s t.inputs with
    | none => s
    | some vs =>
      { s with
          tasks := s.tasks.set i (execedTask t vs),
          log := s.log ++ [i] }

/-- Modelled from the spec: the readiness re-check of one tracked task
(section 4.1): a `pending` task whose input failed is marked `failed`
with a `DependencyFailure` (without executing its body); a `pending`
task all of whose inputs are resolved becomes `ready` and is enqueued
at the back of the FIFO queue. -/
def recheckOne (s : SchedState) (i : Nat) : SchedState :=
  match taskAt s i with
  | none => s
  | some t =>
    if t.status = Status.pending then
      if t.inputs.any (fun j => isFailed s j) then
        { s with tasks := s.tasks.set i (depFailedTask t) }
      else if t.inputs.all (fun j => isDone s j) then
        { s with
            tasks := s.tasks.set i { t with status := Status.ready },
            queue := s.queue ++ [i] }
      else s
    else s

def recheckList (s : SchedState) : List Nat → SchedState
  | [] => s
  | i :: is => recheckList (recheckOne s i) is

/-- Modelled from the spec: a resolution event triggers a re-check of
every tracked task (section 4.1). Tasks are re-checked in id order, so
a dependency failure cascades transitively in one pass (inputs always
have smaller ids than their dependents). -/
def recheck (s : SchedState) : SchedState :=
  recheckList s (List.range s.tasks.length)

/-- Modelled from the spec: one backend worker step (section 4.2): pop
the front of the FIFO queue, execute that task, then re-check
readiness of the tracked tasks. An empty queue leaves the state
unchanged. -/
def step (s : SchedState) : SchedState :=
  match s.queue with
  | [] => s
  | i :: rest => recheck (execTask { s with queue := rest } i)

def stepN (s : SchedState) : Nat → SchedState
  | 0 => s
  | n + 1 => stepN (step s) n

/-- The transitive dependency closure of task `i`, itself included,
computed with explicit fuel (inputs always have smaller ids, so fuel
`i` suffices below). -/
def closureAux (s : SchedState) : Nat → Nat → List Nat
  | 0, i => [i]
  | f + 1, i =>
    i :: (match taskAt s i with
          | none => []
          | some t => t.inputs.flatMap (closureAux s f))

def closure (s : SchedState) (i : Nat) : List Nat := closureAux s i i

/-- Every task in the transitive dependency closure of `i` is resolved
or failed. -/
def closureSettled (s : SchedState) (i : Nat) : Bool :=
  (closure s i).all (fun j => isSettled s j)

def waitForAux (s : SchedState) (h : Nat) : Nat → SchedState
  | 0 => s
  | f + 1 =>
    if closureSettled s h then s else waitForAux (step s) h f

/-- Modelled from the spec: `wait_for(handle)` (section 4.4): blocks
the caller, letting the backend worker consume the FIFO queue, until
the handle and transitively all of its dependency chain is resolved or
failed, then returns the handle failure or value. Tasks outside the
dependency chain that the worker has not yet reached are left as they
are. One worker step settles at least one task, so `tasks.length`
steps always suffice. -/
def wait_for (s : SchedState) (h : Handle) :
    SchedState × Option (Except TaskError Int) :=
  let s2 := waitForAux s h.tid s.tasks.length
  (s2, resultOf s2 h.tid)

/-- Modelled from the spec: `wait_all()` (section 4.4): blocks until
the queue and all pending tasks are drained. -/
def wait_all (s : SchedState) : SchedState :=
  stepN s s.tasks.length

/-- Sequence an evaluator over a list of input ids, stopping at the
first error. -/
def seqInputs (g : Nat → Except TaskError Int) : List Nat → Except TaskError (List Int)
  | [] => Except.ok []
  | j :: js =>
    match g j, seqInputs g js with
    | Except.ok v, Except.ok vs => Except.ok (v :: vs)
    | Except.error e, _ => Except.error e
    | _, Except.error e => Except.error e

/-- Modelled from the spec: the value a task must come out to, read off
the dependency graph alone (operation closures and input edges): the
operation applied to the values of the inputs, a `TaskFailure` if the
body throws, and a `DependencyFailure` as soon as any input fails.
Fuel-based; fuel `i + 1` suffices for task `i` since inputs have
smaller ids. -/
def evalD (s : SchedState) : Nat → Nat → Except TaskError Int
  | 0, _ => Except.error TaskError.dependencyFailure
  | f + 1, i =>
    match taskAt s i with
    | none => Except.error TaskError.dependencyFailure
    | some t =>
      match seqInputs (fun j => evalD s f j) t.inputs with
      | Except.ok vs =>
        match t.op vs with
        | Except.ok v => Except.ok v
        | Except.error e => Except.error (TaskError.taskFailure e)
      | Except.error _ => Except.error TaskError.dependencyFailure

/-- Modelled from the spec: a materializing operation (printing, scalar
extraction via `item`, conversion via `asnumpy`) internally invokes
`wait_for` on the handle it touches and then uses the materialized
value (sections 4.3 and 6). -/
def materialize (s : SchedState) (h : Handle) :
    SchedState × Option (Except TaskError Int) :=
  wait_for s h

/-- Direct dependency: `j` is an input handle of task `i`. -/
def directDep (s : SchedState) (i j : Nat) : Prop :=
  ∃ t, taskAt s i = some t ∧ j ∈ t.inputs

/-- Task `i` depends, directly or transitively, on task `j`. -/
inductive DependsOn (s : SchedState) : Nat → Nat → Prop
  | direct {i j : Nat} : directDep s i j → DependsOn s i j
  | tail {i j k : Nat} : directDep s i j → DependsOn s j k → DependsOn s i k

/-- `a` occurs strictly before `b` in the list `l`. -/
def listBefore (l : List Nat) (a b : Nat) : Prop :=
  ∃ p q : Nat, p < q ∧ l[p]? = some a ∧ l[q]? = some b

/-- States reachable from the empty execution context by frontend
submissions and backend worker steps (the barriers `wait_for` and
`wait_all` only iterate worker steps). Submitted input handles come
from prior submissions, as section 4.1 requires. -/
inductive Reachable : SchedState → Prop
  | init : Reachable initState
  | submit {s : SchedState} (op : List Int → Except String Int)
      (ins : List Handle) (hins : ∀ h ∈ ins, h.tid < s.tasks.length) :
      Reachable s → Reachable (submit s op ins).1
  | step {s : SchedState} : Reachable s → Reachable (step s)

/-- The two states agree on the dependency graph proper: the operation
closure and the input edges of every task (statuses, results, queue
and log may differ). -/
def graphEq (s s' : SchedState) : Prop :=
  ∀ i, (taskAt s i).map Task.op = (taskAt s' i).map Task.op ∧
    (taskAt s i).map Task.inputs = (taskAt s' i).map Task.inputs

/-- The set of not-yet-settled task ids. -/
def unsettledSet (s : SchedState) : Finset ℕ :=
  (Finset.range s.tasks.length).filter (fun i => isSettled s i = false)

/-- Number of tasks that are neither resolved nor failed. -/
def unsettledCard (s : SchedState) : Nat := (unsettledSet s).card

/-- Structural soundness of an execution context, except for the
pending-task clause (which is momentarily broken between a worker
executing a task and the subsequent readiness re-check). -/
structure PreInv (s : SchedState) : Prop where
  inputsLt : ∀ i t j, taskAt s i = some t → j ∈ t.inputs → j < i
  noRunning : ∀ i t, taskAt s i = some t → t.status ≠ Status.running
  queueLt : ∀ i ∈ s.queue, i < s.tasks.length
  queueReady : ∀ i ∈ s.queue, statusOf s i = some Status.ready
  readyQueue : ∀ i t, taskAt s i = some t → t.status = Status.ready → i ∈ s.queue
  queueNodup : s.queue.Nodup
  resultNone : ∀ i t, taskAt s i = some t →
    t.status = Status.pending ∨ t.status = Status.ready → t.result = none
  resultEval : ∀ i t, taskAt s i = some t →
    t.status = Status.done ∨ t.status = Status.failed →
    t.result = some (evalD s (i + 1) i)
  doneOk : ∀ i t, taskAt s i = some t → t.status = Status.done →
    (∃ v, t.result = some (Except.ok v)) ∧ t.executed = true
  failedErr : ∀ i t, taskAt s i = some t → t.status = Status.failed →
    ∃ e, t.result = some (Except.error e)
  failedNoExec : ∀ i t, taskAt s i = some t → t.status = Status.failed →
    t.executed = false → t.result = some (Except.error TaskError.dependencyFailure)
  execInputsDone : ∀ i t, taskAt s i = some t → t.executed = true →
    ∀ j ∈ t.inputs, isDone s j = true
  readyInputsDone : ∀ i t, taskAt s i = some t → t.status = Status.ready →
    ∀ j ∈ t.inputs, isDone s j = true
  execSettled : ∀ i t, taskAt s i = some t → t.executed = true →
    t.status = Status.done ∨ t.status = Status.failed
  logExec : ∀ i, i ∈ s.log ↔ ∃ t, taskAt s i = some t ∧ t.executed = true
  logNodup : s.log.Nodup
  logOrder : ∀ i t, taskAt s i = some t → t.executed = true →
    ∀ j ∈ t.inputs, listBefore s.log j i

/-- Full soundness of an execution context: additionally, every
pending task really is blocked on some not-yet-settled input. -/
structure Inv (s : SchedState) extends PreInv s : Prop where
  pendingBlocked : ∀ i t, taskAt s i = some t → t.status = Status.pending →
    ∃ j ∈ t.inputs, isSettled s j = false

/-- Operation returning the constant `c`. -/
def constOp (c : Int) : List Int → Except String Int := fun _ => Except.ok c

/-- Operation summing all of its input values. -/
def addOp : List Int → Except String Int := fun vs => Except.ok (vs.foldl (· + ·) 0)

/-- Operation adding one to its first input value. -/
def incOp : List Int → Except String Int := fun vs => Except.ok (vs.headD 0 + 1)

/-- Operation whose body always throws. -/
def failOp : List Int → Except String Int := fun _ => Except.error "boom"

/-- Scenario state of section 8: after submitting X = const 1. -/
def xyzS1 : SchedState := (submit initState (constOp 1) []).1

/-- Scenario state: after additionally submitting Y = const 1. -/
def xyzS2 : SchedState := (submit xyzS1 (constOp 1) []).1

/-- Scenario state: after additionally submitting Z = add (X, Y). -/
def xyzS3 : SchedState := (submit xyzS2 addOp [⟨0⟩, ⟨1⟩]).1

/-- Two independent constant tasks, nothing executed yet. -/
def pairS : SchedState := (submit (submit initState (constOp 1) []).1 (constOp 2) []).1

/-- A failing task (id 0) with one dependent (id 1). -/
def failS : SchedState := (submit (submit initState failOp []).1 addOp [⟨0⟩]).1

/-- Scenario of section 8: a chain of `n` increment tasks on top of a
constant task, submitted with no intermediate barrier. -/
def chain (init : Int) : Nat → SchedState × Handle
  | 0 => submit initState (constOp init) []
  | n + 1 => submit (chain init n).1 incOp [(chain init n).2]

/-- The XYZ scenario state after `wait_for` on Z's handle. -/
def xyzDone : SchedState := (wait_for xyzS3 ⟨2⟩).1

/-- The task entry of Z in `xyzDone`. -/
def xyzTask2 : Task := ⟨2, addOp, [0, 1], Status.done, some (Except.ok 2), true⟩

/-- The failure scenario state after `wait_for` on the failing task. -/
def failDone : SchedState := (wait_for failS ⟨0⟩).1

/-- The task entry of the dependent task in `failDone`. -/
def failTask1 : Task :=
  ⟨1, addOp, [0], Status.failed,
    some (Except.error TaskError.dependencyFailure), false⟩

theorem taskAt_lt {s : SchedState} {i : Nat} {t : Task}
    (h : taskAt s i = some t) : i < s.tasks.length :=
  (List.getElem?_eq_some.mp h).1

theorem taskAt_none {s : SchedState} {i : Nat}
    (h : s.tasks.length ≤ i) : taskAt s i = none :=
  List.getElem?_len_le h

theorem seqInputs_congr {g g' : Nat → Except TaskError Int} :
    ∀ {l : List Nat}, (∀ j ∈ l, g j = g' j) → seqInputs g l = seqInputs g' l
  | [], _ => rfl
  | j :: js, h => by
    have h1 : g j = g' j := h j (by simp)
    have h2 : seqInputs g js = seqInputs g' js :=
      seqInputs_congr (fun k hk => h k (by simp [hk]))
    simp only [seqInputs, h1, h2]

theorem graphEq_refl (s : SchedState) : graphEq s s := fun _ => ⟨rfl, rfl⟩

theorem graphEq_trans {s1 s2 s3 : SchedState}
    (h1 : graphEq s1 s2) (h2 : graphEq s2 s3) : graphEq s1 s3 :=
  fun i => ⟨(h1 i).1.trans (h2 i).1, (h1 i).2.trans (h2 i).2⟩

theorem evalD_congr {s s' : SchedState} (h : graphEq s s') :
    ∀ (f i : Nat), evalD s f i = evalD s' f i := by
  intro f i
  induction f generalizing i with
  | zero => rfl
  | succ f ih =>
    obtain ⟨hop, hin⟩ := h i
    cases hs : taskAt s i with
    | none =>
      cases hs' : taskAt s' i with
      | none => simp [evalD, hs, hs']
      | some t' => rw [hs, hs'] at hop; simp at hop
    | some t =>
      cases hs' : taskAt s' i with
      | none => rw [hs, hs'] at hop; simp at hop
      | some t' =>
        rw [hs, hs'] at hop hin
        simp only [Option.map_some'] at hop hin
        have hinr : t.inputs = t'.inputs := Option.some.inj hin
        have hopr : t.op = t'.op := Option.some.inj hop
        have hseq : seqInputs (fun j => evalD s f j) t'.inputs =
            seqInputs (fun j => evalD s' f j) t'.inputs :=
          seqInputs_congr (fun j _ => ih j)
        simp only [evalD, hs, hs', hseq, hinr, hopr]

theorem evalD_fuel {s : SchedState}
    (hlt : ∀ i t j, taskAt s i = some t → j ∈ t.inputs → j < i) :
    ∀ (i f f' : Nat), i < f → i < f' → evalD s f i = evalD s f' i := by
  intro i
  induction i using Nat.strong_induction_on with
  | _ i ih =>
    intro f f' hf hf'
    cases f with
    | zero => omega
    | succ g =>
      cases f' with
      | zero => omega
      | succ g' =>
        cases hs : taskAt s i with
        | none => simp [evalD, hs]
        | some t =>
          have hseq : seqInputs (fun j => evalD s g j) t.inputs =
              seqInputs (fun j => evalD s g' j) t.inputs := by
            refine seqInputs_congr (fun j hj => ?_)
            have hji : j < i := hlt i t j hs hj
            exact ih j hji g g' (by omega) (by omega)
          simp only [evalD, hs, hseq]

theorem evalD_append {s s' : SchedState}
    (hlt : ∀ i t j, taskAt s i = some t → j ∈ t.inputs → j < i)
    (hag : ∀ j, j < s.tasks.length → taskAt s' j = taskAt s j) :
    ∀ (f i : Nat), i < s.tasks.length → evalD s' f i = evalD s f i := by
  intro f
  induction f with
  | zero => intro i _; rfl
  | succ f ih =>
    intro i hi
    have he : taskAt s' i = taskAt s i := hag i hi
    cases hs : taskAt s i with
    | none => simp [evalD, hs, he.trans hs]
    | some t =>
      have hseq : seqInputs (fun j => evalD s' f j) t.inputs =
          seqInputs (fun j => evalD s f j) t.inputs := by
        refine seqInputs_congr (fun j hj => ?_)
        exact ih j (lt_trans (hlt i t j hs hj) hi)
      rw [evalD, evalD, he, hs]
      simp only [hseq]

theorem execTask_length (s : SchedState) (i : Nat) :
    (execTask s i).tasks.length = s.tasks.length := by
  rcases hs : taskAt s i with _ | t
  · simp [execTask, hs]
  · rcases hv : inputVals s t.inputs with _ | vs <;> simp [execTask, hs, hv]

theorem execTask_queue (s : SchedState) (i : Nat) :
    (execTask s i).queue = s.queue := by
  rcases hs : taskAt s i with _ | t
  · simp [execTask, hs]
  · rcases hv : inputVals s t.inputs with _ | vs <;> simp [execTask, hs, hv]

theorem recheckOne_length (s : SchedState) (i : Nat) :
    (recheckOne s i).tasks.length = s.tasks.length := by
  rcases hs : taskAt s i with _ | t
  · simp [recheckOne, hs]
  · by_cases hp : t.status = Status.pending
    · by_cases hf : t.inputs.any (fun j => isFailed s j)
      · simp [recheckOne, hs, hp, hf]
      · by_cases hd : t.inputs.all (fun j => isDone s j) <;>
          simp [recheckOne, hs, hp, hf, hd]
    · simp [recheckOne, hs, hp]

theorem recheckOne_queue (s : SchedState) (i : Nat) :
    ∃ add, (recheckOne s i).queue = s.queue ++ add := by
  rcases hs : taskAt s i with _ | t
  · exact ⟨[], by simp [recheckOne, hs]⟩
  · by_cases hp : t.status = Status.pending
    · by_cases hf : t.inputs.any (fun j => isFailed s j)
      · exact ⟨[], by simp [recheckOne, hs, hp, hf]⟩
      · by_cases hd : t.inputs.all (fun j => isDone s j)
        · exact ⟨[i], by simp [recheckOne, hs, hp, hf, hd]⟩
        · exact ⟨[], by simp [recheckOne, hs, hp, hf, hd]⟩
    · exact ⟨[], by simp [recheckOne, hs, hp]⟩

theorem recheckList_length (s : SchedState) (l : List Nat) :
    (recheckList s l).tasks.length = s.tasks.length := by
  induction l generalizing s with
  | nil => rfl
  | cons i is ih => rw [recheckList, ih, recheckOne_length]

theorem recheckList_queue (s : SchedState) (l : List Nat) :
    ∃ add, (recheckList s l).queue = s.queue ++ add := by
  induction l generalizing s with
  | nil => exact ⟨[], by simp [recheckList]⟩
  | cons i is ih =>
    obtain ⟨a1, h1⟩ := recheckOne_queue s i
    obtain ⟨a2, h2⟩ := ih (recheckOne s i)
    exact ⟨a1 ++ a2, by rw [recheckList, h2, h1, List.append_assoc]⟩

theorem recheck_length (s : SchedState) :
    (recheck s).tasks.length = s.tasks.length := recheckList_length s _

theorem step_length (s : SchedState) : (step s).tasks.length = s.tasks.length := by
  unfold step
  cases hq : s.queue with
  | nil => rfl
  | cons i rest =>
    rw [recheck_length, execTask_length]

theorem stepN_length (s : SchedState) (n : Nat) :
    (stepN s n).tasks.length = s.tasks.length := by
  induction n generalizing s with
  | zero => rfl
  | succ n ih => rw [stepN, ih, step_length]

theorem isDone_iff {s : SchedState} {j : Nat} :
    isDone s j = true ↔ ∃ t, taskAt s j = some t ∧ t.status = Status.done := by
  unfold isDone
  rcases h : taskAt s j with _ | t <;> simp

theorem isFailed_iff {s : SchedState} {j : Nat} :
    isFailed s j = true ↔ ∃ t, taskAt s j = some t ∧ t.status = Status.failed := by
  unfold isFailed
  rcases h : taskAt s j with _ | t <;> simp

theorem isSettled_iff {s : SchedState} {j : Nat} :
    isSettled s j = true ↔ ∃ t, taskAt s j = some t ∧
      (t.status = Status.done ∨ t.status = Status.failed) := by
  unfold isSettled
  rw [Bool.or_eq_true, isDone_iff, isFailed_iff]
  constructor
  · rintro (⟨t, ht, h⟩ | ⟨t, ht, h⟩) <;> exact ⟨t, ht, by simp [h]⟩
  · rintro ⟨t, ht, h | h⟩
    · exact Or.inl ⟨t, ht, h⟩
    · exact Or.inr ⟨t, ht, h⟩

theorem isDone_congr {s s' : SchedState} {j : Nat}
    (h : taskAt s' j = taskAt s j) : isDone s' j = isDone s j := by
  unfold isDone
  rw [h]

theorem isFailed_congr {s s' : SchedState} {j : Nat}
    (h : taskAt s' j = taskAt s j) : isFailed s' j = isFailed s j := by
  unfold isFailed
  rw [h]

theorem isSettled_congr {s s' : SchedState} {j : Nat}
    (h : taskAt s' j = taskAt s j) : isSettled s' j = isSettled s j := by
  unfold isSettled
  rw [isDone_congr h, isFailed_congr h]

theorem execTask_none {s : SchedState} {i : Nat}
    (hs : taskAt s i = none) : execTask s i = s := by
  simp [execTask, hs]

theorem execTask_noVals {s : SchedState} {i : Nat} {t : Task}
    (hs : taskAt s i = some t) (hv : inputVals s t.inputs = none) :
    execTask s i = s := by
  simp [execTask, hs, hv]

theorem execTask_at_self {s : SchedState} {i : Nat} {t : Task} {vs : List Int}
    (hs : taskAt s i = some t) (hv : inputVals s t.inputs = some vs) :
    taskAt (execTask s i) i = some (execedTask t vs) := by
  have hi : i < s.tasks.length := taskAt_lt hs
  simp only [execTask, hs, hv]
  show (s.tasks.set i (execedTask t vs))[i]? = some (execedTask t vs)
  exact List.getElem?_set_eq_of_lt _ hi

theorem execTask_at_ne {s : SchedState} {i : Nat} (j : Nat) (hne : j ≠ i) :
    taskAt (execTask s i) j = taskAt s j := by
  rcases hs : taskAt s i with _ | t
  · simp [execTask, hs]
  · rcases hv : inputVals s t.inputs with _ | vs
    · simp [execTask, hs, hv]
    · simp only [execTask, hs, hv]
      show (s.tasks.set i _)[j]? = s.tasks[j]?
      exact List.getElem?_set_ne (Ne.symm hne)

theorem execTask_log {s : SchedState} {i : Nat} {t : Task} {vs : List Int}
    (hs : taskAt s i = some t) (hv : inputVals s t.inputs = some vs) :
    (execTask s i).log = s.log ++ [i] := by
  simp [execTask, hs, hv]

theorem recheckOne_none {s : SchedState} {i : Nat}
    (hs : taskAt s i = none) : recheckOne s i = s := by
  simp [recheckOne, hs]

theorem recheckOne_notPending {s : SchedState} {i : Nat} {t : Task}
    (hs : taskAt s i = some t) (hp : t.status ≠ Status.pending) :
    recheckOne s i = s := by
  simp [recheckOne, hs, hp]

theorem recheckOne_blocked {s : SchedState} {i : Nat} {t : Task}
    (hs : taskAt s i = some t) (hp : t.status = Status.pending)
    (hf : t.inputs.any (fun j => isFailed s j) = false)
    (hd : t.inputs.all (fun j => isDone s j) = false) :
    recheckOne s i = s := by
  simp [recheckOne, hs, hp, hf, hd]

theorem recheckOne_depFail {s : SchedState} {i : Nat} {t : Task}
    (hs : taskAt s i = some t) (hp : t.status = Status.pending)
    (hf : t.inputs.any (fun j => isFailed s j) = true) :
    taskAt (recheckOne s i) i = some (depFailedTask t) ∧
      (recheckOne s i).queue = s.queue ∧ (recheckOne s i).log = s.log := by
  have hi : i < s.tasks.length := taskAt_lt hs
  refine ⟨?_, by simp [recheckOne, hs, hp, hf], by simp [recheckOne, hs, hp, hf]⟩
  simp only [recheckOne, hs, hp, if_pos rfl, hf, if_pos rfl]
  show (s.tasks.set i (depFailedTask t))[i]? = some (depFailedTask t)
  exact List.getElem?_set_eq_of_lt _ hi

theorem recheckOne_becomesReady {s : SchedState} {i : Nat} {t : Task}
    (hs : taskAt s i = some t) (hp : t.status = Status.pending)
    (hf : t.inputs.any (fun j => isFailed s j) = false)
    (hd : t.inputs.all (fun j => isDone s j) = true) :
    taskAt (recheckOne s i) i = some { t with status := Status.ready } ∧
      (recheckOne s i).queue = s.queue ++ [i] ∧ (recheckOne s i).log = s.log := by
  have hi : i < s.tasks.length := taskAt_lt hs
  refine ⟨?_, by simp [recheckOne, hs, hp, hf, hd], by simp [recheckOne, hs, hp, hf, hd]⟩
  simp only [recheckOne, hs, hp, if_pos rfl, hf, hd]
  show (s.tasks.set i _)[i]? = some _
  simp [List.getElem?_set_eq_of_lt _ hi]

theorem recheckOne_tasks_cases (s : SchedState) (i : Nat) :
    (recheckOne s i).tasks = s.tasks ∨
      ∃ t2, (recheckOne s i).tasks = s.tasks.set i t2 := by
  rcases hs : taskAt s i with _ | t
  · left; rw [recheckOne_none hs]
  · by_cases hp : t.status = Status.pending
    · by_cases hf : t.inputs.any (fun j => isFailed s j)
      · right; exact ⟨depFailedTask t, by simp [recheckOne, hs, hp, hf]⟩
      · by_cases hd : t.inputs.all (fun j => isDone s j)
        · right
          exact ⟨{ t with status := Status.ready },
            by simp [recheckOne, hs, hp, eq_false_of_ne_true hf, hd]⟩
        · left
          rw [recheckOne_blocked hs hp (eq_false_of_ne_true hf) (eq_false_of_ne_true hd)]
    · left; rw [recheckOne_notPending hs hp]

theorem recheckOne_at_ne {s : SchedState} {i : Nat} (j : Nat) (hne : j ≠ i) :
    taskAt (recheckOne s i) j = taskAt s j := by
  rcases recheckOne_tasks_cases s i with h | ⟨t2, h⟩
  · show (recheckOne s i).tasks[j]? = s.tasks[j]?
    rw [h]
  · show (recheckOne s i).tasks[j]? = s.tasks[j]?
    rw [h]
    exact List.getElem?_set_ne (Ne.symm hne)

theorem recheckOne_log (s : SchedState) (i : Nat) :
    (recheckOne s i).log = s.log := by
  rcases hs : taskAt s i with _ | t
  · rw [recheckOne_none hs]
  · by_cases hp : t.status = Status.pending
    · by_cases hf : t.inputs.any (fun j => isFailed s j)
      · simp [recheckOne, hs, hp, hf]
      · by_cases hd : t.inputs.all (fun j => isDone s j) <;>
          simp [recheckOne, hs, hp, hf, hd]
    · rw [recheckOne_notPending hs hp]

theorem recheckList_log (s : SchedState) (l : List Nat) :
    (recheckList s l).log = s.log := by
  induction l generalizing s with
  | nil => rfl
  | cons i is ih => rw [recheckList, ih, recheckOne_log]

theorem done_mono_recheckOne {s : SchedState} {i j : Nat}
    (h : isDone s j = true) : isDone (recheckOne s i) j = true := by
  by_cases hji : j = i
  · subst hji
    obtain ⟨t, ht, hst⟩ := isDone_iff.mp h
    rw [recheckOne_notPending ht (by rw [hst]; intro hc; cases hc)]
    exact h
  · rw [isDone_congr (recheckOne_at_ne j hji)]
    exact h

theorem failed_mono_recheckOne {s : SchedState} {i j : Nat}
    (h : isFailed s j = true) : isFailed (recheckOne s i) j = true := by
  by_cases hji : j = i
  · subst hji
    obtain ⟨t, ht, hst⟩ := isFailed_iff.mp h
    rw [recheckOne_notPending ht (by rw [hst]; intro hc; cases hc)]
    exact h
  · rw [isFailed_congr (recheckOne_at_ne j hji)]
    exact h

theorem settled_mono_recheckOne {s : SchedState} {i j : Nat}
    (h : isSettled s j = true) : isSettled (recheckOne s i) j = true := by
  unfold isSettled at h ⊢
  rcases (Bool.or_eq_true _ _).mp h with h1 | h1
  · rw [done_mono_recheckOne h1]
    rfl
  · rw [failed_mono_recheckOne h1]
    simp

theorem done_mono_recheckList {s : SchedState} {j : Nat} {l : List Nat}
    (h : isDone s j = true) : isDone (recheckList s l) j = true := by
  induction l generalizing s with
  | nil => exact h
  | cons i is ih => exact ih (done_mono_recheckOne h)

theorem failed_mono_recheckList {s : SchedState} {j : Nat} {l : List Nat}
    (h : isFailed s j = true) : isFailed (recheckList s l) j = true := by
  induction l generalizing s with
  | nil => exact h
  | cons i is ih => exact ih (failed_mono_recheckOne h)

theorem settled_mono_recheckList {s : SchedState} {j : Nat} {l : List Nat}
    (h : isSettled s j = true) : isSettled (recheckList s l) j = true := by
  induction l generalizing s with
  | nil => exact h
  | cons i is ih => exact ih (settled_mono_recheckOne h)

theorem graphEq_execTask (s : SchedState) (i : Nat) : graphEq s (execTask s i) := by
  intro j
  by_cases hji : j = i
  · subst hji
    rcases hs : taskAt s j with _ | t
    · rw [execTask_none hs, hs]
      exact ⟨rfl, rfl⟩
    · rcases hv : inputVals s t.inputs with _ | vs
      · rw [execTask_noVals hs hv, hs]
        exact ⟨rfl, rfl⟩
      · rw [execTask_at_self hs hv]
        exact ⟨rfl, rfl⟩
  · rw [execTask_at_ne j hji]
    exact ⟨rfl, rfl⟩

theorem graphEq_recheckOne (s : SchedState) (i : Nat) : graphEq s (recheckOne s i) := by
  intro j
  by_cases hji : j = i
  · subst hji
    rcases hs : taskAt s j with _ | t
    · rw [recheckOne_none hs, hs]
      exact ⟨rfl, rfl⟩
    · by_cases hp : t.status = Status.pending
      · by_cases hf : t.inputs.any (fun k => isFailed s k)
        · rw [(recheckOne_depFail hs hp hf).1]
          exact ⟨rfl, rfl⟩
        · by_cases hd : t.inputs.all (fun k => isDone s k)
          · rw [(recheckOne_becomesReady hs hp (eq_false_of_ne_true hf) hd).1]
            exact ⟨rfl, rfl⟩
          · rw [recheckOne_blocked hs hp (eq_false_of_ne_true hf) (eq_false_of_ne_true hd), hs]
            exact ⟨rfl, rfl⟩
      · rw [recheckOne_notPending hs hp, hs]
        exact ⟨rfl, rfl⟩
  · rw [recheckOne_at_ne j hji]
    exact ⟨rfl, rfl⟩

theorem graphEq_recheckList (s : SchedState) (l : List Nat) :
    graphEq s (recheckList s l) := by
  induction l generalizing s with
  | nil => exact graphEq_refl s
  | cons i is ih => exact graphEq_trans (graphEq_recheckOne s i) (ih (recheckOne s i))

theorem graphEq_queue (s : SchedState) (q : List Nat) :
    graphEq s { s with queue := q } := fun _ => ⟨rfl, rfl⟩

theorem graphEq_step (s : SchedState) : graphEq s (step s) := by
  unfold step
  cases hq : s.queue with
  | nil => exact graphEq_refl s
  | cons i rest =>
    exact graphEq_trans (graphEq_queue s rest)
      (graphEq_trans (graphEq_execTask _ i) (graphEq_recheckList _ _))

theorem graphEq_stepN (s : SchedState) (n : Nat) : graphEq s (stepN s n) := by
  induction n generalizing s with
  | zero => exact graphEq_refl s
  | succ n ih => exact graphEq_trans (graphEq_step s) (ih (step s))

theorem graphEq_waitForAux (s : SchedState) (h : Nat) (f : Nat) :
    graphEq s (waitForAux s h f) := by
  induction f generalizing s with
  | zero => exact graphEq_refl s
  | succ f ih =>
    unfold waitForAux
    by_cases hc : closureSettled s h
    · simp only [hc, if_pos rfl]
      exact graphEq_refl s
    · simp only [hc]
      exact graphEq_trans (graphEq_step s) (ih (step s))

theorem closureAux_congr {s s' : SchedState} (h : graphEq s s') :
    ∀ (f i : Nat), closureAux s f i = closureAux s' f i := by
  intro f
  induction f with
  | zero => intro i; rfl
  | succ f ih =>
    intro i
    have hin := (h i).2
    have hfn : closureAux s f = closureAux s' f := funext ih
    cases hs : taskAt s i with
    | none =>
      cases hs' : taskAt s' i with
      | none => simp [closureAux, hs, hs']
      | some t' => rw [hs, hs'] at hin; simp at hin
    | some t =>
      cases hs' : taskAt s' i with
      | none => rw [hs, hs'] at hin; simp at hin
      | some t' =>
        rw [hs, hs'] at hin
        simp only [Option.map_some'] at hin
        simp only [closureAux, hs, hs', Option.some.inj hin, hfn]

theorem inputVals_of_done {s : SchedState} {l : List Nat}
    (h : ∀ j ∈ l, ∃ t v, taskAt s j = some t ∧ t.result = some (Except.ok v)) :
    ∃ vs, inputVals s l = some vs := by
  induction l with
  | nil => exact ⟨[], rfl⟩
  | cons j js ih =>
    obtain ⟨t, v, ht, hr⟩ := h j (by simp)
    obtain ⟨vs, hvs⟩ := ih (fun k hk => h k (by simp [hk]))
    have hres : resultOf s j = some (Except.ok v) := by
      unfold resultOf
      rw [ht]
      exact hr
    exact ⟨v :: vs, by simp [inputVals, hres, hvs]⟩

theorem seqInputs_ok {g : Nat → Except TaskError Int} {s : SchedState} {l : List Nat}
    {vs : List Int} (hv : inputVals s l = some vs)
    (hg : ∀ j ∈ l, ∀ v, resultOf s j = some (Except.ok v) → g j = Except.ok v) :
    seqInputs g l = Except.ok vs := by
  induction l generalizing vs with
  | nil =>
    simp only [inputVals] at hv
    rw [← Option.some.inj hv]
    rfl
  | cons j js ih =>
    simp only [inputVals] at hv
    rcases hr : resultOf s j with _ | r
    · rw [hr] at hv; simp at hv
    · rcases r with e | v
      · rw [hr] at hv; simp at hv
      · rcases hvs : inputVals s js with _ | vs'
        · rw [hr, hvs] at hv; simp at hv
        · rw [hr, hvs] at hv
          simp only at hv
          have h1 : g j = Except.ok v := hg j (by simp) v hr
          have h2 : seqInputs g js = Except.ok vs' :=
            ih hvs (fun k hk => hg k (by simp [hk]))
          rw [← Option.some.inj hv]
          simp [seqInputs, h1, h2]

theorem seqInputs_err {g : Nat → Except TaskError Int} {l : List Nat}
    (h : ∃ j ∈ l, ∃ e, g j = Except.error e) :
    ∃ e, seqInputs g l = Except.error e := by
  induction l with
  | nil => simp at h
  | cons j js ih =>
    obtain ⟨k, hk, e, he⟩ := h
    rcases List.mem_cons.mp hk with rfl | hk2
    · rcases hjs : seqInputs g js with vs | e2 <;>
        exact ⟨e, by simp [seqInputs, he, hjs]⟩
    · obtain ⟨e2, he2⟩ := ih ⟨k, hk2, e, he⟩
      rcases hj : g j with e3 | v
      · exact ⟨e3, by simp [seqInputs, hj, he2]⟩
      · exact ⟨e2, by simp [seqInputs, hj, he2]⟩

theorem done_result_ok {s : SchedState} (hP : PreInv s) {j : Nat} {t : Task}
    (ht : taskAt s j = some t) (hd : t.status = Status.done) :
    ∃ v, t.result = some (Except.ok v) ∧ evalD s (j + 1) j = Except.ok v := by
  obtain ⟨⟨v, hr⟩, _⟩ := hP.doneOk j t ht hd
  have he := hP.resultEval j t ht (Or.inl hd)
  rw [hr] at he
  exact ⟨v, hr, (Option.some.inj he).symm⟩

theorem failed_result_err {s : SchedState} (hP : PreInv s) {j : Nat} {t : Task}
    (ht : taskAt s j = some t) (hf : t.status = Status.failed) :
    ∃ e, t.result = some (Except.error e) ∧ evalD s (j + 1) j = Except.error e := by
  obtain ⟨e, hr⟩ := hP.failedErr j t ht hf
  have he := hP.resultEval j t ht (Or.inr hf)
  rw [hr] at he
  exact ⟨e, hr, (Option.some.inj he).symm⟩

theorem evalD_ready {s : SchedState} (hP : PreInv s) {i : Nat} {t : Task} {vs : List Int}
    (hs : taskAt s i = some t) (hv : inputVals s t.inputs = some vs) :
    evalD s (i + 1) i = runOp t vs := by
  have hseq : seqInputs (fun j => evalD s i j) t.inputs = Except.ok vs := by
    refine seqInputs_ok hv (fun j hj v hr => ?_)
    unfold resultOf at hr
    rcases htj : taskAt s j with _ | tj
    · rw [htj] at hr; simp at hr
    · rw [htj] at hr
      simp only [Option.some_bind] at hr
      have hji : j < i := hP.inputsLt i t j hs hj
      have hstj : tj.status = Status.done := by
        rcases hcase : tj.status with _ | _ | _ | _ | _
        · have := hP.resultNone j tj htj (Or.inl hcase); rw [this] at hr; cases hr
        · have := hP.resultNone j tj htj (Or.inr hcase); rw [this] at hr; cases hr
        · exact absurd hcase (hP.noRunning j tj htj)
        · rfl
        · obtain ⟨e, he⟩ := hP.failedErr j tj htj hcase
          rw [he] at hr
          cases Option.some.inj hr
      obtain ⟨v', hr', he'⟩ := done_result_ok hP htj hstj
      rw [hr'] at hr
      have hv' : v' = v := by
        cases Option.some.inj hr
        rfl
      rw [evalD_fuel hP.inputsLt j i (j + 1) hji (by omega), he', hv']
  simp [evalD, hs, hseq, runOp]

theorem evalD_depFailed {s : SchedState} (hP : PreInv s) {i : Nat} {t : Task}
    (hs : taskAt s i = some t)
    (hf : t.inputs.any (fun j => isFailed s j) = true) :
    evalD s (i + 1) i = Except.error TaskError.dependencyFailure := by
  obtain ⟨j, hj, hjf⟩ := List.any_eq_true.mp hf
  obtain ⟨tj, htj, hstj⟩ := isFailed_iff.mp (by simpa using hjf)
  obtain ⟨e, hr, he⟩ := failed_result_err hP htj hstj
  have hji : j < i := hP.inputsLt i t j hs hj
  have hje : evalD s i j = Except.error e := by
    rw [evalD_fuel hP.inputsLt j i (j + 1) hji (by omega)]
    exact he
  obtain ⟨e', hseq⟩ := seqInputs_err ⟨j, hj, e, hje⟩
  simp [evalD, hs, hseq]

theorem listBefore_append {l l2 : List Nat} {a b : Nat}
    (h : listBefore l a b) : listBefore (l ++ l2) a b := by
  obtain ⟨p, q, hpq, hp, hq⟩ := h
  have hpl : p < l.length := (List.getElem?_eq_some.mp hp).1
  have hql : q < l.length := (List.getElem?_eq_some.mp hq).1
  exact ⟨p, q, hpq, by rw [List.getElem?_append_left hpl]; exact hp,
    by rw [List.getElem?_append_left hql]; exact hq⟩

theorem listBefore_concat {l : List Nat} {a b : Nat} (h : a ∈ l) :
    listBefore (l ++ [b]) a b := by
  obtain ⟨p, hpl, hp⟩ := List.mem_iff_getElem.mp h
  refine ⟨p, l.length, hpl, ?_, ?_⟩
  · rw [List.getElem?_append_left hpl]
    exact (List.getElem?_eq_getElem hpl).trans (by rw [hp])
  · exact List.getElem?_concat_length l b

theorem listBefore_mem_left {l : List Nat} {a b : Nat}
    (h : listBefore l a b) : a ∈ l := by
  obtain ⟨p, _, _, hp, _⟩ := h
  exact List.getElem?_mem hp

theorem listBefore_trans {l : List Nat} (hnd : l.Nodup) {a b c : Nat}
    (h1 : listBefore l a b) (h2 : listBefore l b c) : listBefore l a c := by
  obtain ⟨p, q, hpq, hp, hq⟩ := h1
  obtain ⟨p', q', hpq', hp', hq'⟩ := h2
  have hqlen : q < l.length := (List.getElem?_eq_some.mp hq).1
  have : q = p' := List.getElem?_inj hqlen hnd (hq.trans hp'.symm)
  exact ⟨p, q', by omega, hp, hq'⟩

theorem nodup_concat_of_not_mem {q : List Nat} {n : Nat}
    (hnd : q.Nodup) (hm : n ∉ q) : (q ++ [n]).Nodup := by
  rw [List.nodup_append]
  exact ⟨hnd, List.nodup_singleton n, fun a ha hb => by
    rw [List.mem_singleton.mp hb] at ha
    exact hm ha⟩

theorem inv_submit_failed {s : SchedState} (hI : Inv s)
    (op : List Int → Except String Int) {inIds : List Nat}
    (hlt : ∀ j ∈ inIds, j < s.tasks.length)
    (hfail : inIds.any (fun j => isFailed s j) = true) :
    Inv (⟨s.tasks ++
      [⟨s.tasks.length, op, inIds, Status.failed,
        some (Except.error TaskError.dependencyFailure), false⟩],
      s.queue, s.log⟩ : SchedState) := by
  set n := s.tasks.length with hn
  set nt : Task := ⟨n, op, inIds, Status.failed,
    some (Except.error TaskError.dependencyFailure), false⟩ with hnt
  set s' : SchedState := ⟨s.tasks ++ [nt], s.queue, s.log⟩ with hs'
  have hAt_lt : ∀ j, j < n → taskAt s' j = taskAt s j := by
    intro j hj
    show (s.tasks ++ [nt])[j]? = s.tasks[j]?
    exact List.getElem?_append_left hj
  have hAt_new : taskAt s' n = some nt := List.getElem?_concat_length _ _
  have hlen' : s'.tasks.length = n + 1 := by simp [hs']
  have hEval : ∀ f j, j < n → evalD s' f j = evalD s f j :=
    fun f j hj => evalD_append hI.inputsLt hAt_lt f j hj
  have hOld : ∀ i t, taskAt s' i = some t → i ≠ n → taskAt s i = some t := by
    intro i t ht hne
    have : i < n + 1 := by
      have := taskAt_lt ht
      rw [hlen'] at this
      exact this
    have hi : i < n := by omega
    rw [← hAt_lt i hi]
    exact ht
  have hNewEval : evalD s' (n + 1) n = Except.error TaskError.dependencyFailure := by
    obtain ⟨j, hj, hjf⟩ := List.any_eq_true.mp hfail
    have hjf' : isFailed s j = true := by simpa using hjf
    obtain ⟨tj, htj, hstj⟩ := isFailed_iff.mp hjf'
    obtain ⟨e, hr, he⟩ := failed_result_err hI.toPreInv htj hstj
    have hjn : j < n := hlt j hj
    have hje : evalD s' n j = Except.error e := by
      rw [hEval n j hjn, evalD_fuel hI.inputsLt j n (j + 1) hjn (by omega)]
      exact he
    obtain ⟨e', hseq⟩ := seqInputs_err ⟨j, hj, e, hje⟩
    simp [evalD, hAt_new, hseq, hnt]
  refine ⟨⟨?_, ?_, ?_, ?_, ?_, ?_, ?_, ?_, ?_, ?_, ?_, ?_, ?_, ?_, ?_, ?_, ?_⟩, ?_⟩
  · -- inputsLt
    intro i t j ht hj
    by_cases hne : i = n
    · subst hne
      rw [hAt_new] at ht
      cases Option.some.inj ht
      exact hlt j hj
    · exact hI.inputsLt i t j (hOld i t ht hne) hj
  · -- noRunning
    intro i t ht
    by_cases hne : i = n
    · subst hne
      rw [hAt_new] at ht
      cases Option.some.inj ht
      intro hc
      cases hc
    · exact hI.noRunning i t (hOld i t ht hne)
  · -- queueLt
    intro i hi
    have := hI.queueLt i hi
    rw [hlen']
    omega
  · -- queueReady
    intro i hi
    have h1 := hI.queueReady i hi
    have h2 : i < n := hI.queueLt i hi
    unfold statusOf at h1 ⊢
    rw [hAt_lt i h2]
    exact h1
  · -- readyQueue
    intro i t ht hr
    by_cases hne : i = n
    · subst hne
      rw [hAt_new] at ht
      cases Option.some.inj ht
      cases hr
    · exact hI.readyQueue i t (hOld i t ht hne) hr
  · -- queueNodup
    exact hI.queueNodup
  · -- resultNone
    intro i t ht hpr
    by_cases hne : i = n
    · subst hne
      rw [hAt_new] at ht
      cases Option.some.inj ht
      rcases hpr with h | h <;> cases h
    · exact hI.resultNone i t (hOld i t ht hne) hpr
  · -- resultEval
    intro i t ht hdf
    by_cases hne : i = n
    · subst hne
      rw [hAt_new] at ht
      cases Option.some.inj ht
      rw [hNewEval]
    · have hiOld := hOld i t ht hne
      have hi : i < n := by
        have := taskAt_lt hiOld
        omega
      rw [hEval (i + 1) i hi]
      exact hI.resultEval i t hiOld hdf
  · -- doneOk
    intro i t ht hd
    by_cases hne : i = n
    · subst hne
      rw [hAt_new] at ht
      cases Option.some.inj ht
      cases hd
    · exact hI.doneOk i t (hOld i t ht hne) hd
  · -- failedErr
    intro i t ht hf
    by_cases hne : i = n
    · subst hne
      rw [hAt_new] at ht
      cases Option.some.inj ht
      exact ⟨TaskError.dependencyFailure, rfl⟩
    · exact hI.failedErr i t (hOld i t ht hne) hf
  · -- failedNoExec
    intro i t ht hf hx
    by_cases hne : i = n
    · subst hne
      rw [hAt_new] at ht
      cases Option.some.inj ht
      rfl
    · exact hI.failedNoExec i t (hOld i t ht hne) hf hx
  · -- execInputsDone
    intro i t ht hx j hj
    by_cases hne : i = n
    · subst hne
      rw [hAt_new] at ht
      cases Option.some.inj ht
      cases hx
    · have hiOld := hOld i t ht hne
      have hjn : j < n := lt_trans (hI.inputsLt i t j hiOld hj) (taskAt_lt hiOld)
      rw [isDone_congr (hAt_lt j hjn)]
      exact hI.execInputsDone i t hiOld hx j hj
  · -- readyInputsDone
    intro i t ht hr j hj
    by_cases hne : i = n
    · subst hne
      rw [hAt_new] at ht
      cases Option.some.inj ht
      cases hr
    · have hiOld := hOld i t ht hne
      have hjn : j < n := lt_trans (hI.inputsLt i t j hiOld hj) (taskAt_lt hiOld)
      rw [isDone_congr (hAt_lt j hjn)]
      exact hI.readyInputsDone i t hiOld hr j hj
  · -- execSettled
    intro i t ht hx
    by_cases hne : i = n
    · subst hne
      rw [hAt_new] at ht
      cases Option.some.inj ht
      cases hx
    · exact hI.execSettled i t (hOld i t ht hne) hx
  · -- logExec
    intro i
    constructor
    · intro hi
      obtain ⟨t, ht, hx⟩ := (hI.logExec i).mp hi
      have hin : i < n := taskAt_lt ht
      exact ⟨t, by rw [hAt_lt i hin]; exact ht, hx⟩
    · rintro ⟨t, ht, hx⟩
      by_cases hne : i = n
      · subst hne
        rw [hAt_new] at ht
        cases Option.some.inj ht
        cases hx
      · exact (hI.logExec i).mpr ⟨t, hOld i t ht hne, hx⟩
  · -- logNodup
    exact hI.logNodup
  · -- logOrder
    intro i t ht hx j hj
    by_cases hne : i = n
    · subst hne
      rw [hAt_new] at ht
      cases Option.some.inj ht
      cases hx
    · exact hI.logOrder i t (hOld i t ht hne) hx j hj
  · -- pendingBlocked
    intro i t ht hp
    by_cases hne : i = n
    · subst hne
      rw [hAt_new] at ht
      cases Option.some.inj ht
      cases hp
    · have hiOld := hOld i t ht hne
      obtain ⟨j, hj, hjs⟩ := hI.pendingBlocked i t hiOld hp
      have hjn : j < n := lt_trans (hI.inputsLt i t j hiOld hj) (taskAt_lt hiOld)
      exact ⟨j, hj, by rw [isSettled_congr (hAt_lt j hjn)]; exact hjs⟩

theorem inv_submit_ready {s : SchedState} (hI : Inv s)
    (op : List Int → Except String Int) {inIds : List Nat}
    (hlt : ∀ j ∈ inIds, j < s.tasks.length)
    (hall : inIds.all (fun j => isDone s j) = true) :
    Inv (⟨s.tasks ++ [⟨s.tasks.length, op, inIds, Status.ready, none, false⟩],
      s.queue ++ [s.tasks.length], s.log⟩ : SchedState) := by
  set n := s.tasks.length with hn
  set nt : Task := ⟨n, op, inIds, Status.ready, none, false⟩ with hnt
  set s' : SchedState := ⟨s.tasks ++ [nt], s.queue ++ [n], s.log⟩ with hs'
  have hAt_lt : ∀ j, j < n → taskAt s' j = taskAt s j := by
    intro j hj
    show (s.tasks ++ [nt])[j]? = s.tasks[j]?
    exact List.getElem?_append_left hj
  have hAt_new : taskAt s' n = some nt := List.getElem?_concat_length _ _
  have hlen' : s'.tasks.length = n + 1 := by simp [hs']
  have hEval : ∀ f j, j < n → evalD s' f j = evalD s f j :=
    fun f j hj => evalD_append hI.inputsLt hAt_lt f j hj
  have hOld : ∀ i t, taskAt s' i = some t → i ≠ n → taskAt s i = some t := by
    intro i t ht hne
    have : i < n + 1 := by
      have := taskAt_lt ht
      rw [hlen'] at this
      exact this
    have hi : i < n := by omega
    rw [← hAt_lt i hi]
    exact ht
  refine ⟨⟨?_, ?_, ?_, ?_, ?_, ?_, ?_, ?_, ?_, ?_, ?_, ?_, ?_, ?_, ?_, ?_, ?_⟩, ?_⟩
  · intro i t j ht hj
    by_cases hne : i = n
    · subst hne
      rw [hAt_new] at ht
      cases Option.some.inj ht
      exact hlt j hj
    · exact hI.inputsLt i t j (hOld i t ht hne) hj
  · intro i t ht
    by_cases hne : i = n
    · subst hne
      rw [hAt_new] at ht
      cases Option.some.inj ht
      intro hc
      cases hc
    · exact hI.noRunning i t (hOld i t ht hne)
  · intro i hi
    rw [hlen']
    rcases List.mem_append.mp hi with h | h
    · have := hI.queueLt i h
      omega
    · rw [List.mem_singleton.mp h]
      omega
  · intro i hi
    rcases List.mem_append.mp hi with h | h
    · have h1 := hI.queueReady i h
      have h2 : i < n := hI.queueLt i h
      unfold statusOf at h1 ⊢
      rw [hAt_lt i h2]
      exact h1
    · rw [List.mem_singleton.mp h]
      unfold statusOf
      rw [hAt_new]
      rfl
  · intro i t ht hr
    by_cases hne : i = n
    · subst hne
      exact List.mem_append.mpr (Or.inr (by simp))
    · exact List.mem_append.mpr (Or.inl (hI.readyQueue i t (hOld i t ht hne) hr))
  · refine nodup_concat_of_not_mem hI.queueNodup ?_
    intro hc
    have := hI.queueLt n hc
    omega
  · intro i t ht hpr
    by_cases hne : i = n
    · subst hne
      rw [hAt_new] at ht
      cases Option.some.inj ht
      rfl
    · exact hI.resultNone i t (hOld i t ht hne) hpr
  · intro i t ht hdf
    by_cases hne : i = n
    · subst hne
      rw [hAt_new] at ht
      cases Option.some.inj ht
      rcases hdf with h | h <;> cases h
    · have hiOld := hOld i t ht hne
      have hi : i < n := by
        have := taskAt_lt hiOld
        omega
      rw [hEval (i + 1) i hi]
      exact hI.resultEval i t hiOld hdf
  · intro i t ht hd
    by_cases hne : i = n
    · subst hne
      rw [hAt_new] at ht
      cases Option.some.inj ht
      cases hd
    · exact hI.doneOk i t (hOld i t ht hne) hd
  · intro i t ht hf
    by_cases hne : i = n
    · subst hne
      rw [hAt_new] at ht
      cases Option.some.inj ht
      cases hf
    · exact hI.failedErr i t (hOld i t ht hne) hf
  · intro i t ht hf hx
    by_cases hne : i = n
    · subst hne
      rw [hAt_new] at ht
      cases Option.some.inj ht
      cases hf
    · exact hI.failedNoExec i t (hOld i t ht hne) hf hx
  · intro i t ht hx j hj
    by_cases hne : i = n
    · subst hne
      rw [hAt_new] at ht
      cases Option.some.inj ht
      cases hx
    · have hiOld := hOld i t ht hne
      have hjn : j < n := lt_trans (hI.inputsLt i t j hiOld hj) (taskAt_lt hiOld)
      rw [isDone_congr (hAt_lt j hjn)]
      exact hI.execInputsDone i t hiOld hx j hj
  · intro i t ht hr j hj
    by_cases hne : i = n
    · subst hne
      rw [hAt_new] at ht
      cases Option.some.inj ht
      have hjd : isDone s j = true := by
        have := List.all_eq_true.mp hall j hj
        simpa using this
      rw [isDone_congr (hAt_lt j (hlt j hj))]
      exact hjd
    · have hiOld := hOld i t ht hne
      have hjn : j < n := lt_trans (hI.inputsLt i t j hiOld hj) (taskAt_lt hiOld)
      rw [isDone_congr (hAt_lt j hjn)]
      exact hI.readyInputsDone i t hiOld hr j hj
  · intro i t ht hx
    by_cases hne : i = n
    · subst hne
      rw [hAt_new] at ht
      cases Option.some.inj ht
      cases hx
    · exact hI.execSettled i t (hOld i t ht hne) hx
  · intro i
    constructor
    · intro hi
      obtain ⟨t, ht, hx⟩ := (hI.logExec i).mp hi
      have hin : i < n := taskAt_lt ht
      exact ⟨t, by rw [hAt_lt i hin]; exact ht, hx⟩
    · rintro ⟨t, ht, hx⟩
      by_cases hne : i = n
      · subst hne
        rw [hAt_new] at ht
        cases Option.some.inj ht
        cases hx
      · exact (hI.logExec i).mpr ⟨t, hOld i t ht hne, hx⟩
  · exact hI.logNodup
  · intro i t ht hx j hj
    by_cases hne : i = n
    · subst hne
      rw [hAt_new] at ht
      cases Option.some.inj ht
      cases hx
    · exact hI.logOrder i t (hOld i t ht hne) hx j hj
  · intro i t ht hp
    by_cases hne : i = n
    · subst hne
      rw [hAt_new] at ht
      cases Option.some.inj ht
      cases hp
    · have hiOld := hOld i t ht hne
      obtain ⟨j, hj, hjs⟩ := hI.pendingBlocked i t hiOld hp
      have hjn : j < n := lt_trans (hI.inputsLt i t j hiOld hj) (taskAt_lt hiOld)
      exact ⟨j, hj, by rw [isSettled_congr (hAt_lt j hjn)]; exact hjs⟩

theorem inv_submit_pending {s : SchedState} (hI : Inv s)
    (op : List Int → Except String Int) {inIds : List Nat}
    (hlt : ∀ j ∈ inIds, j < s.tasks.length)
    (hfail : inIds.any (fun j => isFailed s j) = false)
    (hall : inIds.all (fun j => isDone s j) = false) :
    Inv (⟨s.tasks ++ [⟨s.tasks.length, op, inIds, Status.pending, none, false⟩],
      s.queue, s.log⟩ : SchedState) := by
  set n := s.tasks.length with hn
  set nt : Task := ⟨n, op, inIds, Status.pending, none, false⟩ with hnt
  set s' : SchedState := ⟨s.tasks ++ [nt], s.queue, s.log⟩ with hs'
  have hAt_lt : ∀ j, j < n → taskAt s' j = taskAt s j := by
    intro j hj
    show (s.tasks ++ [nt])[j]? = s.tasks[j]?
    exact List.getElem?_append_left hj
  have hAt_new : taskAt s' n = some nt := List.getElem?_concat_length _ _
  have hlen' : s'.tasks.length = n + 1 := by simp [hs']
  have hEval : ∀ f j, j < n → evalD s' f j = evalD s f j :=
    fun f j hj => evalD_append hI.inputsLt hAt_lt f j hj
  have hOld : ∀ i t, taskAt s' i = some t → i ≠ n → taskAt s i = some t := by
    intro i t ht hne
    have : i < n + 1 := by
      have := taskAt_lt ht
      rw [hlen'] at this
      exact this
    have hi : i < n := by omega
    rw [← hAt_lt i hi]
    exact ht
  refine ⟨⟨?_, ?_, ?_, ?_, ?_, ?_, ?_, ?_, ?_, ?_, ?_, ?_, ?_, ?_, ?_, ?_, ?_⟩, ?_⟩
  · intro i t j ht hj
    by_cases hne : i = n
    · subst hne
      rw [hAt_new] at ht
      cases Option.some.inj ht
      exact hlt j hj
    · exact hI.inputsLt i t j (hOld i t ht hne) hj
  · intro i t ht
    by_cases hne : i = n
    · subst hne
      rw [hAt_new] at ht
      cases Option.some.inj ht
      intro hc
      cases hc
    · exact hI.noRunning i t (hOld i t ht hne)
  · intro i hi
    have := hI.queueLt i hi
    rw [hlen']
    omega
  · intro i hi
    have h1 := hI.queueReady i hi
    have h2 : i < n := hI.queueLt i hi
    unfold statusOf at h1 ⊢
    rw [hAt_lt i h2]
    exact h1
  · intro i t ht hr
    by_cases hne : i = n
    · subst hne
      rw [hAt_new] at ht
      cases Option.some.inj ht
      cases hr
    · exact hI.readyQueue i t (hOld i t ht hne) hr
  · exact hI.queueNodup
  · intro i t ht hpr
    by_cases hne : i = n
    · subst hne
      rw [hAt_new] at ht
      cases Option.some.inj ht
      rfl
    · exact hI.resultNone i t (hOld i t ht hne) hpr
  · intro i t ht hdf
    by_cases hne : i = n
    · subst hne
      rw [hAt_new] at ht
      cases Option.some.inj ht
      rcases hdf with h | h <;> cases h
    · have hiOld := hOld i t ht hne
      have hi : i < n := by
        have := taskAt_lt hiOld
        omega
      rw [hEval (i + 1) i hi]
      exact hI.resultEval i t hiOld hdf
  · intro i t ht hd
    by_cases hne : i = n
    · subst hne
      rw [hAt_new] at ht
      cases Option.some.inj ht
      cases hd
    · exact hI.doneOk i t (hOld i t ht hne) hd
  · intro i t ht hf
    by_cases hne : i = n
    · subst hne
      rw [hAt_new] at ht
      cases Option.some.inj ht
      cases hf
    · exact hI.failedErr i t (hOld i t ht hne) hf
  · intro i t ht hf hx
    by_cases hne : i = n
    · subst hne
      rw [hAt_new] at ht
      cases Option.some.inj ht
      cases hf
    · exact hI.failedNoExec i t (hOld i t ht hne) hf hx
  · intro i t ht hx j hj
    by_cases hne : i = n
    · subst hne
      rw [hAt_new] at ht
      cases Option.some.inj ht
      cases hx
    · have hiOld := hOld i t ht hne
      have hjn : j < n := lt_trans (hI.inputsLt i t j hiOld hj) (taskAt_lt hiOld)
      rw [isDone_congr (hAt_lt j hjn)]
      exact hI.execInputsDone i t hiOld hx j hj
  · intro i t ht hr j hj
    by_cases hne : i = n
    · subst hne
      rw [hAt_new] at ht
      cases Option.some.inj ht
      cases hr
    · have hiOld := hOld i t ht hne
      have hjn : j < n := lt_trans (hI.inputsLt i t j hiOld hj) (taskAt_lt hiOld)
      rw [isDone_congr (hAt_lt j hjn)]
      exact hI.readyInputsDone i t hiOld hr j hj
  · intro i t ht hx
    by_cases hne : i = n
    · subst hne
      rw [hAt_new] at ht
      cases Option.some.inj ht
      cases hx
    · exact hI.execSettled i t (hOld i t ht hne) hx
  · intro i
    constructor
    · intro hi
      obtain ⟨t, ht, hx⟩ := (hI.logExec i).mp hi
      have hin : i < n := taskAt_lt ht
      exact ⟨t, by rw [hAt_lt i hin]; exact ht, hx⟩
    · rintro ⟨t, ht, hx⟩
      by_cases hne : i = n
      · subst hne
        rw [hAt_new] at ht
        cases Option.some.inj ht
        cases hx
      · exact (hI.logExec i).mpr ⟨t, hOld i t ht hne, hx⟩
  · exact hI.logNodup
  · intro i t ht hx j hj
    by_cases hne : i = n
    · subst hne
      rw [hAt_new] at ht
      cases Option.some.inj ht
      cases hx
    · exact hI.logOrder i t (hOld i t ht hne) hx j hj
  · intro i t ht hp
    by_cases hne : i = n
    · subst hne
      rw [hAt_new] at ht
      cases Option.some.inj ht
      have hex : ∃ j ∈ inIds, isDone s j = false := by
        by_contra hc
        push_neg at hc
        have hat : inIds.all (fun j => isDone s j) = true := by
          refine List.all_eq_true.mpr (fun j hj => ?_)
          have h2 := hc j hj
          cases h3 : isDone s j with
          | false => exact absurd h3 h2
          | true => rfl
        rw [hat] at hall
        cases hall
      obtain ⟨j, hj, hjd⟩ := hex
      have hjf : isFailed s j = false := by
        have := List.any_eq_false.mp hfail j hj
        simpa using this
      refine ⟨j, hj, ?_⟩
      rw [isSettled_congr (hAt_lt j (hlt j hj))]
      unfold isSettled
      rw [hjd, hjf]
      rfl
    · have hiOld := hOld i t ht hne
      obtain ⟨j, hj, hjs⟩ := hI.pendingBlocked i t hiOld hp
      have hjn : j < n := lt_trans (hI.inputsLt i t j hiOld hj) (taskAt_lt hiOld)
      exact ⟨j, hj, by rw [isSettled_congr (hAt_lt j hjn)]; exact hjs⟩

theorem inv_submit {s : SchedState} (hI : Inv s)
    (op : List Int → Except String Int) (ins : List Handle)
    (hins : ∀ h ∈ ins, h.tid < s.tasks.length) :
    Inv (submit s op ins).1 := by
  have hlt : ∀ j ∈ ins.map Handle.tid, j < s.tasks.length := by
    intro j hj
    obtain ⟨h, hh, rfl⟩ := List.mem_map.mp hj
    exact hins h hh
  by_cases hfail : (ins.map Handle.tid).any (fun j => isFailed s j)
  · have he : (submit s op ins).1 =
        ⟨s.tasks ++ [⟨s.tasks.length, op, ins.map Handle.tid, Status.failed,
          some (Except.error TaskError.dependencyFailure), false⟩],
          s.queue, s.log⟩ := by
      simp [submit, hfail]
    rw [he]
    exact inv_submit_failed hI op hlt hfail
  · by_cases hall : (ins.map Handle.tid).all (fun j => isDone s j)
    · have he : (submit s op ins).1 =
          ⟨s.tasks ++ [⟨s.tasks.length, op, ins.map Handle.tid, Status.ready,
            none, false⟩], s.queue ++ [s.tasks.length], s.log⟩ := by
        simp [submit, hfail, hall]
      rw [he]
      exact inv_submit_ready hI op hlt hall
    · have he : (submit s op ins).1 =
          ⟨s.tasks ++ [⟨s.tasks.length, op, ins.map Handle.tid, Status.pending,
            none, false⟩], s.queue, s.log⟩ := by
        simp [submit, hfail, hall]
      rw [he]
      exact inv_submit_pending hI op hlt (eq_false_of_ne_true hfail)
        (eq_false_of_ne_true hall)

theorem not_executed_of_unsettled {s : SchedState} (hP : PreInv s) {a : Nat} {t : Task}
    (hs : taskAt s a = some t) (h1 : t.status ≠ Status.done)
    (h2 : t.status ≠ Status.failed) : t.executed = false := by
  cases hx : t.executed
  · rfl
  · rcases hP.execSettled a t hs hx with h | h
    · exact absurd h h1
    · exact absurd h h2

theorem unsettled_of_status {s : SchedState} {a : Nat} {t : Task}
    (hs : taskAt s a = some t) (h1 : t.status ≠ Status.done)
    (h2 : t.status ≠ Status.failed) : isSettled s a = false := by
  unfold isSettled isDone isFailed
  rw [hs]
  simp [h1, h2]

theorem preInv_recheckOne_depFail {s : SchedState} (hP : PreInv s) {a : Nat} {t : Task}
    (hs : taskAt s a = some t) (hp : t.status = Status.pending)
    (hf : t.inputs.any (fun j => isFailed s j) = true) :
    PreInv (recheckOne s a) := by
  have hxf : t.executed = false :=
    not_executed_of_unsettled hP hs (by rw [hp]; intro h; cases h)
      (by rw [hp]; intro h; cases h)
  have hAt : taskAt (recheckOne s a) a = some (depFailedTask t) :=
    (recheckOne_depFail hs hp hf).1
  have hQ : (recheckOne s a).queue = s.queue := (recheckOne_depFail hs hp hf).2.1
  have hL : (recheckOne s a).log = s.log := (recheckOne_depFail hs hp hf).2.2
  have hLen : (recheckOne s a).tasks.length = s.tasks.length := recheckOne_length s a
  have hEv : ∀ f j, evalD (recheckOne s a) f j = evalD s f j :=
    fun f j => (evalD_congr (graphEq_recheckOne s a) f j).symm
  have hOld : ∀ i t2, taskAt (recheckOne s a) i = some t2 → i ≠ a →
      taskAt s i = some t2 := by
    intro i t2 ht hne
    rw [← recheckOne_at_ne i hne]
    exact ht
  have hNewEval : evalD s (a + 1) a = Except.error TaskError.dependencyFailure :=
    evalD_depFailed hP hs hf
  refine ⟨?_, ?_, ?_, ?_, ?_, ?_, ?_, ?_, ?_, ?_, ?_, ?_, ?_, ?_, ?_, ?_, ?_⟩
  · intro i t2 j ht hj
    by_cases hne : i = a
    · subst hne
      rw [hAt] at ht
      cases Option.some.inj ht
      exact hP.inputsLt i t j hs hj
    · exact hP.inputsLt i t2 j (hOld i t2 ht hne) hj
  · intro i t2 ht
    by_cases hne : i = a
    · subst hne
      rw [hAt] at ht
      cases Option.some.inj ht
      intro hc
      cases hc
    · exact hP.noRunning i t2 (hOld i t2 ht hne)
  · intro i hi
    rw [hQ] at hi
    rw [hLen]
    exact hP.queueLt i hi
  · intro i hi
    rw [hQ] at hi
    have h1 := hP.queueReady i hi
    have hne : i ≠ a := by
      intro hc
      subst hc
      unfold statusOf at h1
      rw [hs] at h1
      simp only [Option.map_some'] at h1
      have h2 := Option.some.inj h1
      rw [hp] at h2
      cases h2
    unfold statusOf at h1 ⊢
    rw [recheckOne_at_ne i hne]
    exact h1
  · intro i t2 ht hr
    rw [hQ]
    by_cases hne : i = a
    · subst hne
      rw [hAt] at ht
      cases Option.some.inj ht
      cases hr
    · exact hP.readyQueue i t2 (hOld i t2 ht hne) hr
  · rw [hQ]
    exact hP.queueNodup
  · intro i t2 ht hpr
    by_cases hne : i = a
    · subst hne
      rw [hAt] at ht
      cases Option.some.inj ht
      rcases hpr with h | h <;> cases h
    · exact hP.resultNone i t2 (hOld i t2 ht hne) hpr
  · intro i t2 ht hdf
    by_cases hne : i = a
    · subst hne
      rw [hAt] at ht
      cases Option.some.inj ht
      rw [hEv, hNewEval]
      rfl
    · rw [hEv]
      exact hP.resultEval i t2 (hOld i t2 ht hne) hdf
  · intro i t2 ht hd
    by_cases hne : i = a
    · subst hne
      rw [hAt] at ht
      cases Option.some.inj ht
      cases hd
    · exact hP.doneOk i t2 (hOld i t2 ht hne) hd
  · intro i t2 ht hfl
    by_cases hne : i = a
    · subst hne
      rw [hAt] at ht
      cases Option.some.inj ht
      exact ⟨TaskError.dependencyFailure, rfl⟩
    · exact hP.failedErr i t2 (hOld i t2 ht hne) hfl
  · intro i t2 ht hfl hx
    by_cases hne : i = a
    · subst hne
      rw [hAt] at ht
      cases Option.some.inj ht
      rfl
    · exact hP.failedNoExec i t2 (hOld i t2 ht hne) hfl hx
  · intro i t2 ht hx j hj
    by_cases hne : i = a
    · subst hne
      rw [hAt] at ht
      cases Option.some.inj ht
      have : t.executed = true := hx
      rw [hxf] at this
      cases this
    · have hiOld := hOld i t2 ht hne
      have hjd := hP.execInputsDone i t2 hiOld hx j hj
      have hja : j ≠ a := by
        intro hc
        subst hc
        obtain ⟨tj, htj, hstj⟩ := isDone_iff.mp hjd
        rw [hs] at htj
        cases Option.some.inj htj
        rw [hp] at hstj
        cases hstj
      rw [isDone_congr (recheckOne_at_ne j hja)]
      exact hjd
  · intro i t2 ht hr j hj
    by_cases hne : i = a
    · subst hne
      rw [hAt] at ht
      cases Option.some.inj ht
      cases hr
    · have hiOld := hOld i t2 ht hne
      have hjd := hP.readyInputsDone i t2 hiOld hr j hj
      have hja : j ≠ a := by
        intro hc
        subst hc
        obtain ⟨tj, htj, hstj⟩ := isDone_iff.mp hjd
        rw [hs] at htj
        cases Option.some.inj htj
        rw [hp] at hstj
        cases hstj
      rw [isDone_congr (recheckOne_at_ne j hja)]
      exact hjd
  · intro i t2 ht hx
    by_cases hne : i = a
    · subst hne
      rw [hAt] at ht
      cases Option.some.inj ht
      have : t.executed = true := hx
      rw [hxf] at this
      cases this
    · exact hP.execSettled i t2 (hOld i t2 ht hne) hx
  · intro i
    rw [hL]
    constructor
    · intro hi
      obtain ⟨t2, ht2, hx2⟩ := (hP.logExec i).mp hi
      by_cases hne : i = a
      · subst hne
        rw [hs] at ht2
        cases Option.some.inj ht2
        rw [hxf] at hx2
        cases hx2
      · exact ⟨t2, by rw [recheckOne_at_ne i hne]; exact ht2, hx2⟩
    · rintro ⟨t2, ht2, hx2⟩
      by_cases hne : i = a
      · subst hne
        rw [hAt] at ht2
        cases Option.some.inj ht2
        have : t.executed = true := hx2
        rw [hxf] at this
        cases this
      · exact (hP.logExec i).mpr ⟨t2, hOld i t2 ht2 hne, hx2⟩
  · rw [hL]
    exact hP.logNodup
  · intro i t2 ht hx j hj
    rw [hL]
    by_cases hne : i = a
    · subst hne
      rw [hAt] at ht
      cases Option.some.inj ht
      have : t.executed = true := hx
      rw [hxf] at this
      cases this
    · exact hP.logOrder i t2 (hOld i t2 ht hne) hx j hj

theorem preInv_recheckOne_ready {s : SchedState} (hP : PreInv s) {a : Nat} {t : Task}
    (hs : taskAt s a = some t) (hp : t.status = Status.pending)
    (hf : t.inputs.any (fun j => isFailed s j) = false)
    (hd : t.inputs.all (fun j => isDone s j) = true) :
    PreInv (recheckOne s a) := by
  have hxf : t.executed = false :=
    not_executed_of_unsettled hP hs (by rw [hp]; intro h; cases h)
      (by rw [hp]; intro h; cases h)
  have hAt : taskAt (recheckOne s a) a = some { t with status := Status.ready } :=
    (recheckOne_becomesReady hs hp hf hd).1
  have hQ : (recheckOne s a).queue = s.queue ++ [a] :=
    (recheckOne_becomesReady hs hp hf hd).2.1
  have hL : (recheckOne s a).log = s.log := (recheckOne_becomesReady hs hp hf hd).2.2
  have hLen : (recheckOne s a).tasks.length = s.tasks.length := recheckOne_length s a
  have hEv : ∀ f j, evalD (recheckOne s a) f j = evalD s f j :=
    fun f j => (evalD_congr (graphEq_recheckOne s a) f j).symm
  have hOld : ∀ i t2, taskAt (recheckOne s a) i = some t2 → i ≠ a →
      taskAt s i = some t2 := by
    intro i t2 ht hne
    rw [← recheckOne_at_ne i hne]
    exact ht
  have haq : a ∉ s.queue := by
    intro hc
    have h1 := hP.queueReady a hc
    unfold statusOf at h1
    rw [hs] at h1
    simp only [Option.map_some'] at h1
    have h2 := Option.some.inj h1
    rw [hp] at h2
    cases h2
  have hrnone : t.result = none := hP.resultNone a t hs (Or.inl hp)
  refine ⟨?_, ?_, ?_, ?_, ?_, ?_, ?_, ?_, ?_, ?_, ?_, ?_, ?_, ?_, ?_, ?_, ?_⟩
  · intro i t2 j ht hj
    by_cases hne : i = a
    · subst hne
      rw [hAt] at ht
      cases Option.some.inj ht
      exact hP.inputsLt i t j hs hj
    · exact hP.inputsLt i t2 j (hOld i t2 ht hne) hj
  · intro i t2 ht
    by_cases hne : i = a
    · subst hne
      rw [hAt] at ht
      cases Option.some.inj ht
      intro hc
      cases hc
    · exact hP.noRunning i t2 (hOld i t2 ht hne)
  · intro i hi
    rw [hQ] at hi
    rw [hLen]
    rcases List.mem_append.mp hi with h | h
    · exact hP.queueLt i h
    · rw [List.mem_singleton.mp h]
      exact taskAt_lt hs
  · intro i hi
    rw [hQ] at hi
    rcases List.mem_append.mp hi with h | h
    · have h1 := hP.queueReady i h
      have hne : i ≠ a := fun hc => haq (hc ▸ h)
      unfold statusOf at h1 ⊢
      rw [recheckOne_at_ne i hne]
      exact h1
    · rw [List.mem_singleton.mp h]
      unfold statusOf
      rw [hAt]
      rfl
  · intro i t2 ht hr
    rw [hQ]
    by_cases hne : i = a
    · subst hne
      exact List.mem_append.mpr (Or.inr (by simp))
    · exact List.mem_append.mpr (Or.inl (hP.readyQueue i t2 (hOld i t2 ht hne) hr))
  · rw [hQ]
    exact nodup_concat_of_not_mem hP.queueNodup haq
  · intro i t2 ht hpr
    by_cases hne : i = a
    · subst hne
      rw [hAt] at ht
      cases Option.some.inj ht
      exact hrnone
    · exact hP.resultNone i t2 (hOld i t2 ht hne) hpr
  · intro i t2 ht hdf
    by_cases hne : i = a
    · subst hne
      rw [hAt] at ht
      cases Option.some.inj ht
      rcases hdf with h | h <;> cases h
    · rw [hEv]
      exact hP.resultEval i t2 (hOld i t2 ht hne) hdf
  · intro i t2 ht hdn
    by_cases hne : i = a
    · subst hne
      rw [hAt] at ht
      cases Option.some.inj ht
      cases hdn
    · exact hP.doneOk i t2 (hOld i t2 ht hne) hdn
  · intro i t2 ht hfl
    by_cases hne : i = a
    · subst hne
      rw [hAt] at ht
      cases Option.some.inj ht
      cases hfl
    · exact hP.failedErr i t2 (hOld i t2 ht hne) hfl
  · intro i t2 ht hfl hx
    by_cases hne : i = a
    · subst hne
      rw [hAt] at ht
      cases Option.some.inj ht
      cases hfl
    · exact hP.failedNoExec i t2 (hOld i t2 ht hne) hfl hx
  · intro i t2 ht hx j hj
    by_cases hne : i = a
    · subst hne
      rw [hAt] at ht
      cases Option.some.inj ht
      have : t.executed = true := hx
      rw [hxf] at this
      cases this
    · have hiOld := hOld i t2 ht hne
      have hjd := hP.execInputsDone i t2 hiOld hx j hj
      have hja : j ≠ a := by
        intro hc
        subst hc
        obtain ⟨tj, htj, hstj⟩ := isDone_iff.mp hjd
        rw [hs] at htj
        cases Option.some.inj htj
        rw [hp] at hstj
        cases hstj
      rw [isDone_congr (recheckOne_at_ne j hja)]
      exact hjd
  · intro i t2 ht hr j hj
    by_cases hne : i = a
    · subst hne
      rw [hAt] at ht
      cases Option.some.inj ht
      have hjd : isDone s j = true := by
        have := List.all_eq_true.mp hd j hj
        simpa using this
      have hja : j ≠ i := by
        intro hc
        subst hc
        obtain ⟨tj, htj, hstj⟩ := isDone_iff.mp hjd
        rw [hs] at htj
        cases Option.some.inj htj
        rw [hp] at hstj
        cases hstj
      rw [isDone_congr (recheckOne_at_ne j hja)]
      exact hjd
    · have hiOld := hOld i t2 ht hne
      have hjd := hP.readyInputsDone i t2 hiOld hr j hj
      have hja : j ≠ a := by
        intro hc
        subst hc
        obtain ⟨tj, htj, hstj⟩ := isDone_iff.mp hjd
        rw [hs] at htj
        cases Option.some.inj htj
        rw [hp] at hstj
        cases hstj
      rw [isDone_congr (recheckOne_at_ne j hja)]
      exact hjd
  · intro i t2 ht hx
    by_cases hne : i = a
    · subst hne
      rw [hAt] at ht
      cases Option.some.inj ht
      have : t.executed = true := hx
      rw [hxf] at this
      cases this
    · exact hP.execSettled i t2 (hOld i t2 ht hne) hx
  · intro i
    rw [hL]
    constructor
    · intro hi
      obtain ⟨t2, ht2, hx2⟩ := (hP.logExec i).mp hi
      by_cases hne : i = a
      · subst hne
        rw [hs] at ht2
        cases Option.some.inj ht2
        rw [hxf] at hx2
        cases hx2
      · exact ⟨t2, by rw [recheckOne_at_ne i hne]; exact ht2, hx2⟩
    · rintro ⟨t2, ht2, hx2⟩
      by_cases hne : i = a
      · subst hne
        rw [hAt] at ht2
        cases Option.some.inj ht2
        have : t.executed = true := hx2
        rw [hxf] at this
        cases this
      · exact (hP.logExec i).mpr ⟨t2, hOld i t2 ht2 hne, hx2⟩
  · rw [hL]
    exact hP.logNodup
  · intro i t2 ht hx j hj
    rw [hL]
    by_cases hne : i = a
    · subst hne
      rw [hAt] at ht
      cases Option.some.inj ht
      have : t.executed = true := hx
      rw [hxf] at this
      cases this
    · exact hP.logOrder i t2 (hOld i t2 ht hne) hx j hj

theorem preInv_recheckOne {s : SchedState} (hP : PreInv s) (a : Nat) :
    PreInv (recheckOne s a) := by
  rcases hs : taskAt s a with _ | t
  · rw [recheckOne_none hs]
    exact hP
  · by_cases hp : t.status = Status.pending
    · by_cases hf : t.inputs.any (fun j => isFailed s j)
      · exact preInv_recheckOne_depFail hP hs hp hf
      · by_cases hd : t.inputs.all (fun j => isDone s j)
        · exact preInv_recheckOne_ready hP hs hp (eq_false_of_ne_true hf) hd
        · rw [recheckOne_blocked hs hp (eq_false_of_ne_true hf) (eq_false_of_ne_true hd)]
          exact hP
    · rw [recheckOne_notPending hs hp]
      exact hP

theorem recheckOne_self_blocked {s : SchedState} (hP : PreInv s) (a : Nat) :
    ∀ t2, taskAt (recheckOne s a) a = some t2 → t2.status = Status.pending →
      ∃ j ∈ t2.inputs, isSettled (recheckOne s a) j = false := by
  intro t2 ht2 hp2
  rcases hs : taskAt s a with _ | t
  · rw [recheckOne_none hs] at ht2 ⊢
    rw [hs] at ht2
    cases ht2
  · by_cases hp : t.status = Status.pending
    · by_cases hf : t.inputs.any (fun j => isFailed s j)
      · rw [(recheckOne_depFail hs hp hf).1] at ht2
        cases Option.some.inj ht2
        cases hp2
      · by_cases hd : t.inputs.all (fun j => isDone s j)
        · rw [(recheckOne_becomesReady hs hp (eq_false_of_ne_true hf) hd).1] at ht2
          cases Option.some.inj ht2
          cases hp2
        · have heq := recheckOne_blocked hs hp (eq_false_of_ne_true hf)
            (eq_false_of_ne_true hd)
          rw [heq] at ht2 ⊢
          rw [hs] at ht2
          have hte : t = t2 := Option.some.inj ht2
          have hex : ∃ j ∈ t.inputs, isDone s j = false := by
            by_contra hc
            push_neg at hc
            have hat : t.inputs.all (fun j => isDone s j) = true := by
              refine List.all_eq_true.mpr (fun j hj => ?_)
              have h2 := hc j hj
              cases h3 : isDone s j with
              | false => exact absurd h3 h2
              | true => rfl
            rw [hat] at hd
            exact hd rfl
          obtain ⟨j, hj, hjd⟩ := hex
          have hjf : isFailed s j = false := by
            have := List.any_eq_false.mp (eq_false_of_ne_true hf) j hj
            simpa using this
          refine ⟨j, by rw [← hte]; exact hj, ?_⟩
          unfold isSettled
          rw [hjd, hjf]
          rfl
    · rw [recheckOne_notPending hs hp] at ht2 ⊢
      rw [hs] at ht2
      cases Option.some.inj ht2
      exact absurd hp2 hp

theorem inv_recheck_go : ∀ (b a : Nat) (s : SchedState),
    a + b = s.tasks.length → PreInv s →
    (∀ i t, i < a → taskAt s i = some t → t.status = Status.pending →
      ∃ j ∈ t.inputs, isSettled s j = false) →
    Inv (recheckList s (List.range' a b)) := by
  intro b
  induction b with
  | zero =>
    intro a s hab hP hblk
    show Inv s
    refine ⟨hP, ?_⟩
    intro i t ht hp
    have hi : i < a := by
      have := taskAt_lt ht
      omega
    exact hblk i t hi ht hp
  | succ b ih =>
    intro a s hab hP hblk
    rw [List.range'_succ]
    show Inv (recheckList (recheckOne s a) (List.range' (a + 1) b))
    refine ih (a + 1) (recheckOne s a) (by rw [recheckOne_length]; omega)
      (preInv_recheckOne hP a) ?_
    intro i t hi ht hp
    by_cases hne : i = a
    · subst hne
      exact recheckOne_self_blocked hP i t ht hp
    · have hia : i < a := by omega
      have htOld : taskAt s i = some t := by
        rw [← recheckOne_at_ne i hne]
        exact ht
      obtain ⟨j, hj, hjs⟩ := hblk i t hia htOld hp
      have hja : j ≠ a := by
        have := hP.inputsLt i t j htOld hj
        omega
      refine ⟨j, hj, ?_⟩
      rw [isSettled_congr (recheckOne_at_ne j hja)]
      exact hjs

theorem inv_recheck {s : SchedState} (hP : PreInv s) : Inv (recheck s) := by
  have h := inv_recheck_go s.tasks.length 0 s (by omega) hP
    (by intro i t hi; omega)
  rw [recheck, List.range_eq_range']
  exact h

theorem queue_head_ready {s : SchedState} (hI : Inv s) {i : Nat} {rest : List Nat}
    (hq : s.queue = i :: rest) :
    ∃ t, taskAt s i = some t ∧ t.status = Status.ready := by
  have h1 := hI.queueReady i (by rw [hq]; simp)
  unfold statusOf at h1
  rcases ht : taskAt s i with _ | t
  · rw [ht] at h1
    cases h1
  · rw [ht] at h1
    simp only [Option.map_some'] at h1
    exact ⟨t, rfl, Option.some.inj h1⟩

theorem ready_inputVals {s : SchedState} (hI : Inv s) {i : Nat} {t : Task}
    (hs : taskAt s i = some t) (hr : t.status = Status.ready) :
    ∃ vs, inputVals s t.inputs = some vs := by
  refine inputVals_of_done (fun j hj => ?_)
  have hjd := hI.readyInputsDone i t hs hr j hj
  obtain ⟨tj, htj, hstj⟩ := isDone_iff.mp hjd
  obtain ⟨v, hv, _⟩ := done_result_ok hI.toPreInv htj hstj
  exact ⟨tj, v, htj, hv⟩

theorem inputVals_queue (s : SchedState) (q : List Nat) (l : List Nat) :
    inputVals { s with queue := q } l = inputVals s l := by
  induction l with
  | nil => rfl
  | cons j js ih =>
    unfold inputVals
    rw [ih]
    rfl

theorem preInv_step_core {s : SchedState} (hI : Inv s) {i : Nat} {rest : List Nat}
    (hq : s.queue = i :: rest) :
    PreInv (execTask { s with queue := rest } i) := by
  obtain ⟨t, hs, hr⟩ := queue_head_ready hI hq
  obtain ⟨vs, hv⟩ := ready_inputVals hI hs hr
  have hs0 : taskAt { s with queue := rest } i = some t := hs
  have hv0 : inputVals { s with queue := rest } t.inputs = some vs := by
    rw [inputVals_queue]
    exact hv
  have hAt1 : taskAt (execTask { s with queue := rest } i) i =
      some (execedTask t vs) := execTask_at_self hs0 hv0
  have hQ1 : (execTask { s with queue := rest } i).queue = rest :=
    execTask_queue _ i
  have hL1 : (execTask { s with queue := rest } i).log = s.log ++ [i] :=
    execTask_log hs0 hv0
  have hLen1 : (execTask { s with queue := rest } i).tasks.length = s.tasks.length :=
    execTask_length _ i
  have hOld1 : ∀ x tx, taskAt (execTask { s with queue := rest } i) x = some tx →
      x ≠ i → taskAt s x = some tx := by
    intro x tx htx hne
    rw [execTask_at_ne x hne] at htx
    exact htx
  have hge : graphEq s (execTask { s with queue := rest } i) :=
    graphEq_trans (graphEq_queue s rest) (graphEq_execTask _ i)
  have hEv1 : ∀ f j, evalD (execTask { s with queue := rest } i) f j = evalD s f j :=
    fun f j => (evalD_congr hge f j).symm
  have hxt : t.executed = false :=
    not_executed_of_unsettled hI.toPreInv hs (by rw [hr]; intro h; cases h)
      (by rw [hr]; intro h; cases h)
  have hilog : i ∉ s.log := by
    intro hc
    obtain ⟨t2, ht2, hx2⟩ := (hI.logExec i).mp hc
    rw [hs] at ht2
    cases Option.some.inj ht2
    rw [hxt] at hx2
    cases hx2
  have hirest : i ∉ rest := by
    have hnd := hI.queueNodup
    rw [hq] at hnd
    exact (List.nodup_cons.mp hnd).1
  have hresteval : runOp t vs = evalD s (i + 1) i :=
    (evalD_ready hI.toPreInv hs hv).symm
  have hinputsDone : ∀ j ∈ t.inputs, isDone s j = true :=
    hI.readyInputsDone i t hs hr
  have hst1 : (execedTask t vs).status = Status.done ∨
      (execedTask t vs).status = Status.failed := by
    unfold execedTask
    rcases hrun : runOp t vs with e | v
    · right
      simp [hrun]
    · left
      simp [hrun]
  have hDoneEq : ∀ j, isDone s j = true →
      isDone (execTask { s with queue := rest } i) j = isDone s j := by
    intro j hjd
    have hji : j ≠ i := by
      intro hc
      subst hc
      obtain ⟨tj, htj, hstj⟩ := isDone_iff.mp hjd
      rw [hs] at htj
      cases Option.some.inj htj
      rw [hr] at hstj
      cases hstj
    exact isDone_congr (execTask_at_ne j hji)
  refine ⟨?_, ?_, ?_, ?_, ?_, ?_, ?_, ?_, ?_, ?_, ?_, ?_, ?_, ?_, ?_, ?_, ?_⟩
  · intro x tx j htx hj
    by_cases hne : x = i
    · subst hne
      rw [hAt1] at htx
      cases Option.some.inj htx
      exact hI.inputsLt x t j hs hj
    · exact hI.inputsLt x tx j (hOld1 x tx htx hne) hj
  · intro x tx htx
    by_cases hne : x = i
    · subst hne
      rw [hAt1] at htx
      cases Option.some.inj htx
      rcases hst1 with h | h <;> rw [h] <;> intro hc <;> cases hc
    · exact hI.noRunning x tx (hOld1 x tx htx hne)
  · intro x hx
    rw [hQ1] at hx
    rw [hLen1]
    exact hI.queueLt x (by rw [hq]; exact List.mem_cons_of_mem i hx)
  · intro x hx
    rw [hQ1] at hx
    have hxq : x ∈ s.queue := by
      rw [hq]
      exact List.mem_cons_of_mem i hx
    have h1 := hI.queueReady x hxq
    have hne : x ≠ i := fun hc => hirest (hc ▸ hx)
    unfold statusOf at h1 ⊢
    rw [execTask_at_ne x hne]
    exact h1
  · intro x tx htx hrx
    rw [hQ1]
    by_cases hne : x = i
    · subst hne
      rw [hAt1] at htx
      cases Option.some.inj htx
      rcases hst1 with h | h <;> rw [hrx] at h <;> cases h
    · have hxq := hI.readyQueue x tx (hOld1 x tx htx hne) hrx
      rw [hq] at hxq
      rcases List.mem_cons.mp hxq with h | h
      · exact absurd h hne
      · exact h
  · rw [hQ1]
    have hnd := hI.queueNodup
    rw [hq] at hnd
    exact (List.nodup_cons.mp hnd).2
  · intro x tx htx hpr
    by_cases hne : x = i
    · subst hne
      rw [hAt1] at htx
      cases Option.some.inj htx
      rcases hst1 with h | h <;> rcases hpr with h2 | h2 <;> rw [h2] at h <;> cases h
    · exact hI.resultNone x tx (hOld1 x tx htx hne) hpr
  · intro x tx htx hdf
    by_cases hne : x = i
    · subst hne
      rw [hAt1] at htx
      cases Option.some.inj htx
      rw [hEv1]
      show some (runOp t vs) = some (evalD s (x + 1) x)
      rw [hresteval]
    · rw [hEv1]
      exact hI.resultEval x tx (hOld1 x tx htx hne) hdf
  · intro x tx htx hdn
    by_cases hne : x = i
    · subst hne
      rw [hAt1] at htx
      cases Option.some.inj htx
      rcases hrun : runOp t vs with e | v
      · have hcon : (execedTask t vs).status = Status.failed := by
          unfold execedTask
          simp [hrun]
        rw [hdn] at hcon
        cases hcon
      · refine ⟨⟨v, ?_⟩, rfl⟩
        show some (runOp t vs) = some (Except.ok v)
        rw [hrun]
    · exact hI.doneOk x tx (hOld1 x tx htx hne) hdn
  · intro x tx htx hfl
    by_cases hne : x = i
    · subst hne
      rw [hAt1] at htx
      cases Option.some.inj htx
      rcases hrun : runOp t vs with e | v
      · refine ⟨e, ?_⟩
        show some (runOp t vs) = some (Except.error e)
        rw [hrun]
      · have hcon : (execedTask t vs).status = Status.done := by
          unfold execedTask
          simp [hrun]
        rw [hfl] at hcon
        cases hcon
    · exact hI.failedErr x tx (hOld1 x tx htx hne) hfl
  · intro x tx htx hfl hxx
    by_cases hne : x = i
    · subst hne
      rw [hAt1] at htx
      cases Option.some.inj htx
      have hcon : (execedTask t vs).executed = true := rfl
      rw [hxx] at hcon
      cases hcon
    · exact hI.failedNoExec x tx (hOld1 x tx htx hne) hfl hxx
  · intro x tx htx hxx j hj
    by_cases hne : x = i
    · subst hne
      rw [hAt1] at htx
      cases Option.some.inj htx
      have hjd := hinputsDone j hj
      rw [hDoneEq j hjd]
      exact hjd
    · have hxOld := hOld1 x tx htx hne
      have hjd := hI.execInputsDone x tx hxOld hxx j hj
      rw [hDoneEq j hjd]
      exact hjd
  · intro x tx htx hrx j hj
    by_cases hne : x = i
    · subst hne
      rw [hAt1] at htx
      cases Option.some.inj htx
      rcases hst1 with h | h <;> rw [hrx] at h <;> cases h
    · have hxOld := hOld1 x tx htx hne
      have hjd := hI.readyInputsDone x tx hxOld hrx j hj
      rw [hDoneEq j hjd]
      exact hjd
  · intro x tx htx hxx
    by_cases hne : x = i
    · subst hne
      rw [hAt1] at htx
      cases Option.some.inj htx
      exact hst1
    · exact hI.execSettled x tx (hOld1 x tx htx hne) hxx
  · intro x
    rw [hL1]
    constructor
    · intro hx
      rcases List.mem_append.mp hx with h | h
      · obtain ⟨tx, htx, hxx⟩ := (hI.logExec x).mp h
        have hne : x ≠ i := by
          intro hc
          subst hc
          exact hilog h
        refine ⟨tx, ?_, hxx⟩
        rw [execTask_at_ne x hne]
        exact htx
      · rw [List.mem_singleton.mp h]
        exact ⟨execedTask t vs, hAt1, rfl⟩
    · rintro ⟨tx, htx, hxx⟩
      by_cases hne : x = i
      · subst hne
        exact List.mem_append.mpr (Or.inr (by simp))
      · exact List.mem_append.mpr
          (Or.inl ((hI.logExec x).mpr ⟨tx, hOld1 x tx htx hne, hxx⟩))
  · rw [hL1]
    exact nodup_concat_of_not_mem hI.logNodup hilog
  · intro x tx htx hxx j hj
    rw [hL1]
    by_cases hne : x = i
    · subst hne
      rw [hAt1] at htx
      cases Option.some.inj htx
      have hjd := hinputsDone j hj
      obtain ⟨tj, htj, hstj⟩ := isDone_iff.mp hjd
      have hjx : tj.executed = true := (hI.doneOk j tj htj hstj).2
      have hjlog : j ∈ s.log := (hI.logExec j).mpr ⟨tj, htj, hjx⟩
      exact listBefore_concat hjlog
    · exact listBefore_append (hI.logOrder x tx (hOld1 x tx htx hne) hxx j hj)

theorem step_empty {s : SchedState} (hq : s.queue = []) : step s = s := by
  unfold step
  rw [hq]

theorem step_cons {s : SchedState} {i : Nat} {rest : List Nat}
    (hq : s.queue = i :: rest) :
    step s = recheck (execTask { s with queue := rest } i) := by
  unfold step
  rw [hq]

theorem inv_step {s : SchedState} (hI : Inv s) : Inv (step s) := by
  rcases hq : s.queue with _ | ⟨i, rest⟩
  · rw [step_empty hq]
    exact hI
  · rw [step_cons hq]
    exact inv_recheck (preInv_step_core hI hq)

theorem inv_init : Inv initState := by
  have hnone : ∀ i, taskAt initState i = none := fun i => rfl
  refine ⟨⟨?_, ?_, ?_, ?_, ?_, ?_, ?_, ?_, ?_, ?_, ?_, ?_, ?_, ?_, ?_, ?_, ?_⟩, ?_⟩
  · intro i t j ht hj
    rw [hnone] at ht
    cases ht
  · intro i t ht
    rw [hnone] at ht
    cases ht
  · intro i hi
    exact absurd hi (List.not_mem_nil i)
  · intro i hi
    exact absurd hi (List.not_mem_nil i)
  · intro i t ht hr
    rw [hnone] at ht
    cases ht
  · exact List.nodup_nil
  · intro i t ht hpr
    rw [hnone] at ht
    cases ht
  · intro i t ht hdf
    rw [hnone] at ht
    cases ht
  · intro i t ht hd
    rw [hnone] at ht
    cases ht
  · intro i t ht hf
    rw [hnone] at ht
    cases ht
  · intro i t ht hf hx
    rw [hnone] at ht
    cases ht
  · intro i t ht hx j hj
    rw [hnone] at ht
    cases ht
  · intro i t ht hr j hj
    rw [hnone] at ht
    cases ht
  · intro i t ht hx
    rw [hnone] at ht
    cases ht
  · intro i
    constructor
    · intro hi
      exact absurd hi (List.not_mem_nil i)
    · rintro ⟨t, ht, _⟩
      rw [hnone] at ht
      cases ht
  · exact List.nodup_nil
  · intro i t ht hx j hj
    rw [hnone] at ht
    cases ht
  · intro i t ht hp
    rw [hnone] at ht
    cases ht

theorem inv_reachable {s : SchedState} (h : Reachable s) : Inv s := by
  induction h with
  | init => exact inv_init
  | submit op ins hins _ ih => exact inv_submit ih op ins hins
  | step _ ih => exact inv_step ih

theorem reachable_stepN {s : SchedState} (h : Reachable s) (n : Nat) :
    Reachable (stepN s n) := by
  induction n generalizing s with
  | zero => exact h
  | succ n ih => exact ih (Reachable.step h)

theorem reachable_waitForAux {s : SchedState} (h : Reachable s) (hh : Nat) (f : Nat) :
    Reachable (waitForAux s hh f) := by
  induction f generalizing s with
  | zero => exact h
  | succ f ih =>
    unfold waitForAux
    by_cases hc : closureSettled s hh
    · simp only [hc, if_pos rfl]
      exact h
    · simp only [hc]
      exact ih (Reachable.step h)

theorem waitForAux_length (s : SchedState) (hh : Nat) (f : Nat) :
    (waitForAux s hh f).tasks.length = s.tasks.length := by
  induction f generalizing s with
  | zero => rfl
  | succ f ih =>
    unfold waitForAux
    by_cases hc : closureSettled s hh
    · rw [if_pos hc]
    · rw [if_neg hc, ih, step_length]

theorem recheckList_stable {j : Nat} {t : Task} :
    ∀ (l : List Nat) (s : SchedState), taskAt s j = some t →
      t.status ≠ Status.pending → taskAt (recheckList s l) j = some t := by
  intro l
  induction l with
  | nil => intro s ht _; exact ht
  | cons a l ih =>
    intro s ht hnp
    refine ih (recheckOne s a) ?_ hnp
    by_cases hja : j = a
    · subst hja
      rw [recheckOne_notPending ht hnp]
      exact ht
    · rw [recheckOne_at_ne j hja]
      exact ht

theorem settledTask_step {s : SchedState} (hI : Inv s) {j : Nat} {t : Task}
    (ht : taskAt s j = some t)
    (hst : t.status = Status.done ∨ t.status = Status.failed) :
    taskAt (step s) j = some t := by
  have hnp : t.status ≠ Status.pending := by
    rcases hst with h | h <;> rw [h] <;> intro hc <;> cases hc
  rcases hq : s.queue with _ | ⟨i, rest⟩
  · rw [step_empty hq]
    exact ht
  · rw [step_cons hq]
    obtain ⟨ti, hi, hri⟩ := queue_head_ready hI hq
    have hji : j ≠ i := by
      intro hc
      subst hc
      rw [ht] at hi
      cases Option.some.inj hi
      rcases hst with h | h <;> rw [h] at hri <;> cases hri
    have h1 : taskAt (execTask { s with queue := rest } i) j = some t := by
      rw [execTask_at_ne j hji]
      exact ht
    exact recheckList_stable _ _ h1 hnp

theorem settledTask_stepN {s : SchedState} (hR : Reachable s) {j : Nat} {t : Task}
    (ht : taskAt s j = some t)
    (hst : t.status = Status.done ∨ t.status = Status.failed) :
    ∀ n, taskAt (stepN s n) j = some t := by
  intro n
  induction n generalizing s with
  | zero => exact ht
  | succ n ih =>
    exact ih (Reachable.step hR) (settledTask_step (inv_reachable hR) ht hst)

theorem settledTask_waitForAux {s : SchedState} (hR : Reachable s) {j : Nat} {t : Task}
    (ht : taskAt s j = some t)
    (hst : t.status = Status.done ∨ t.status = Status.failed) :
    ∀ hh f, taskAt (waitForAux s hh f) j = some t := by
  intro hh f
  induction f generalizing s with
  | zero => exact ht
  | succ f ih =>
    unfold waitForAux
    by_cases hc : closureSettled s hh
    · simp only [hc, if_pos rfl]
      exact ht
    · simp only [hc]
      exact ih (Reachable.step hR) (settledTask_step (inv_reachable hR) ht hst)

theorem settled_mono_step {s : SchedState} (hI : Inv s) {j : Nat}
    (h : isSettled s j = true) : isSettled (step s) j = true := by
  obtain ⟨t, ht, hst⟩ := isSettled_iff.mp h
  have := settledTask_step hI ht hst
  exact isSettled_iff.mpr ⟨t, this, hst⟩

theorem step_settles_head {s : SchedState} (hI : Inv s) {i : Nat} {rest : List Nat}
    (hq : s.queue = i :: rest) : isSettled (step s) i = true := by
  obtain ⟨t, hs, hr⟩ := queue_head_ready hI hq
  obtain ⟨vs, hv⟩ := ready_inputVals hI hs hr
  have hs0 : taskAt { s with queue := rest } i = some t := hs
  have hv0 : inputVals { s with queue := rest } t.inputs = some vs := by
    rw [inputVals_queue]
    exact hv
  have hAt1 : taskAt (execTask { s with queue := rest } i) i =
      some (execedTask t vs) := execTask_at_self hs0 hv0
  have hst1 : (execedTask t vs).status = Status.done ∨
      (execedTask t vs).status = Status.failed := by
    unfold execedTask
    rcases hrun : runOp t vs with e | v
    · right
      simp [hrun]
    · left
      simp [hrun]
  have h1 : isSettled (execTask { s with queue := rest } i) i = true :=
    isSettled_iff.mpr ⟨execedTask t vs, hAt1, hst1⟩
  rw [step_cons hq]
  exact settled_mono_recheckList h1

theorem unsettledCard_le (s : SchedState) : unsettledCard s ≤ s.tasks.length := by
  unfold unsettledCard unsettledSet
  calc ((Finset.range s.tasks.length).filter fun i => isSettled s i = false).card
      ≤ (Finset.range s.tasks.length).card := Finset.card_filter_le _ _
    _ = s.tasks.length := Finset.card_range _

theorem mem_unsettledSet {s : SchedState} {j : Nat} :
    j ∈ unsettledSet s ↔ j < s.tasks.length ∧ isSettled s j = false := by
  unfold unsettledSet
  rw [Finset.mem_filter, Finset.mem_range]

theorem step_unsettledCard_lt {s : SchedState} (hI : Inv s) {i : Nat}
    {rest : List Nat} (hq : s.queue = i :: rest) :
    unsettledCard (step s) < unsettledCard s := by
  have hsub : unsettledSet (step s) ⊆ unsettledSet s := by
    intro x hx
    obtain ⟨hx1, hx2⟩ := mem_unsettledSet.mp hx
    rw [step_length] at hx1
    refine mem_unsettledSet.mpr ⟨hx1, ?_⟩
    cases h3 : isSettled s x with
    | false => rfl
    | true =>
      rw [settled_mono_step hI h3] at hx2
      cases hx2
  refine Finset.card_lt_card ((Finset.ssubset_iff_of_subset hsub).mpr ?_)
  refine ⟨i, ?_, ?_⟩
  · obtain ⟨t, hs, hr⟩ := queue_head_ready hI hq
    refine mem_unsettledSet.mpr ⟨hI.queueLt i (by rw [hq]; simp), ?_⟩
    exact unsettled_of_status hs (by rw [hr]; intro h; cases h)
      (by rw [hr]; intro h; cases h)
  · intro hc
    have := (mem_unsettledSet.mp hc).2
    rw [step_settles_head hI hq] at this
    cases this

theorem queue_ne_of_unsettled {s : SchedState} (hI : Inv s) :
    ∀ (j : Nat), j < s.tasks.length → isSettled s j = false → s.queue ≠ [] := by
  intro j
  induction j using Nat.strong_induction_on with
  | _ j ih =>
    intro hj hu
    have ht : taskAt s j = some s.tasks[j] := List.getElem?_eq_getElem hj
    rcases hcase : (s.tasks[j]).status with _ | _ | _ | _ | _
    · obtain ⟨k, hk, hku⟩ := hI.pendingBlocked j _ ht hcase
      have hkj : k < j := hI.inputsLt j _ k ht hk
      exact ih k hkj (lt_trans hkj hj) hku
    · have := hI.readyQueue j _ ht hcase
      exact List.ne_nil_of_mem this
    · exact absurd hcase (hI.noRunning j _ ht)
    · have : isSettled s j = true := isSettled_iff.mpr ⟨_, ht, Or.inl hcase⟩
      rw [this] at hu
      cases hu
    · have : isSettled s j = true := isSettled_iff.mpr ⟨_, ht, Or.inr hcase⟩
      rw [this] at hu
      cases hu

theorem stepN_drain : ∀ (f : Nat) {s : SchedState}, Inv s → unsettledCard s ≤ f →
    (∀ j, j < (stepN s f).tasks.length → isSettled (stepN s f) j = true) ∧
      (stepN s f).queue = [] := by
  intro f
  induction f with
  | zero =>
    intro s hI hcard
    have hempty : unsettledSet s = ∅ :=
      Finset.card_eq_zero.mp (Nat.le_zero.mp hcard)
    have hall : ∀ j, j < s.tasks.length → isSettled s j = true := by
      intro j hj
      by_contra hc
      have hmem : j ∈ unsettledSet s :=
        mem_unsettledSet.mpr ⟨hj, eq_false_of_ne_true hc⟩
      rw [hempty] at hmem
      exact absurd hmem (Finset.not_mem_empty j)
    refine ⟨hall, ?_⟩
    rcases hq : s.queue with _ | ⟨i, rest⟩
    · exact hq
    · have hi := hI.queueLt i (by rw [hq]; simp)
      obtain ⟨t, hs, hr⟩ := queue_head_ready hI hq
      have := hall i hi
      rw [unsettled_of_status hs (by rw [hr]; intro h; cases h)
        (by rw [hr]; intro h; cases h)] at this
      cases this
  | succ f ih =>
    intro s hI hcard
    show (∀ j, j < (stepN (step s) f).tasks.length →
      isSettled (stepN (step s) f) j = true) ∧ (stepN (step s) f).queue = []
    rcases hq : s.queue with _ | ⟨i, rest⟩
    · have hs0 : step s = s := step_empty hq
      have hcard0 : unsettledCard s = 0 := by
        by_contra hc
        obtain ⟨j, hj⟩ := Finset.card_ne_zero.mp hc
        obtain ⟨hj1, hj2⟩ := mem_unsettledSet.mp hj
        exact absurd hq (queue_ne_of_unsettled hI j hj1 hj2)
      rw [hs0]
      exact ih hI (by omega)
    · have hlt := step_unsettledCard_lt hI hq
      exact ih (inv_step hI) (by omega)

theorem wait_all_drains {s : SchedState} (hR : Reachable s) :
    (wait_all s).queue = [] ∧
      ∀ j t, taskAt (wait_all s) j = some t →
        t.status = Status.done ∨ t.status = Status.failed := by
  have hI := inv_reachable hR
  obtain ⟨hall, hq⟩ := stepN_drain s.tasks.length hI (unsettledCard_le s)
  refine ⟨hq, ?_⟩
  intro j t ht
  have ht2a : taskAt (stepN s s.tasks.length) j = some t := ht
  have hj : j < (stepN s s.tasks.length).tasks.length := taskAt_lt ht2a
  have := hall j hj
  obtain ⟨t2, ht2, hst2⟩ := isSettled_iff.mp this
  rw [ht2a] at ht2
  cases Option.some.inj ht2
  exact hst2

theorem closureAux_lt {s : SchedState} (hP : PreInv s) :
    ∀ (f i : Nat), i < s.tasks.length →
      ∀ j ∈ closureAux s f i, j < s.tasks.length := by
  intro f
  induction f with
  | zero =>
    intro i hi j hj
    simp only [closureAux, List.mem_singleton] at hj
    omega
  | succ f ih =>
    intro i hi j hj
    simp only [closureAux] at hj
    rcases List.mem_cons.mp hj with rfl | hj2
    · exact hi
    · rcases hs : taskAt s i with _ | t
      · rw [hs] at hj2
        simp at hj2
      · rw [hs] at hj2
        obtain ⟨k, hk, hjk⟩ := List.mem_flatMap.mp hj2
        have hki : k < i := hP.inputsLt i t k hs hk
        exact ih k (by omega) j hjk

theorem self_mem_closureAux (s : SchedState) :
    ∀ (f i : Nat), i ∈ closureAux s f i := by
  intro f i
  cases f with
  | zero => simp [closureAux]
  | succ f => simp [closureAux]

theorem waitForAux_settles : ∀ (f : Nat) {s : SchedState} {h : Nat}, Inv s →
    h < s.tasks.length → unsettledCard s ≤ f →
    closureSettled (waitForAux s h f) h = true := by
  intro f
  induction f with
  | zero =>
    intro s h hI hh hcard
    have hempty : unsettledSet s = ∅ :=
      Finset.card_eq_zero.mp (Nat.le_zero.mp hcard)
    refine List.all_eq_true.mpr (fun j hj => ?_)
    have hjlt : j < s.tasks.length := closureAux_lt hI.toPreInv h h hh j hj
    by_contra hc
    have hmem : j ∈ unsettledSet s :=
      mem_unsettledSet.mpr ⟨hjlt, eq_false_of_ne_true (by simpa using hc)⟩
    rw [hempty] at hmem
    exact absurd hmem (Finset.not_mem_empty j)
  | succ f ih =>
    intro s h hI hh hcard
    unfold waitForAux
    by_cases hc : closureSettled s h
    · simp only [hc, if_pos rfl]
      exact hc
    · simp only [hc]
      have hex : ∃ j ∈ closure s h, isSettled s j = false := by
        by_contra hc2
        push_neg at hc2
        refine hc (List.all_eq_true.mpr (fun j hj => ?_))
        have h2 := hc2 j hj
        cases h3 : isSettled s j with
        | false => exact absurd h3 h2
        | true => rfl
      obtain ⟨j, hj, hju⟩ := hex
      have hjlt : j < s.tasks.length := closureAux_lt hI.toPreInv h h hh j hj
      have hqne := queue_ne_of_unsettled hI j hjlt hju
      rcases hq : s.queue with _ | ⟨i, rest⟩
      · exact absurd hq hqne
      · have hlt := step_unsettledCard_lt hI hq
        exact ih (inv_step hI) (by rw [step_length]; exact hh) (by omega)

theorem wait_for_closureSettled {s : SchedState} (hR : Reachable s) {h : Handle}
    (hh : h.tid < s.tasks.length) :
    closureSettled (wait_for s h).1 h.tid = true :=
  waitForAux_settles s.tasks.length (inv_reachable hR) hh (unsettledCard_le s)

theorem closure_congr {s s' : SchedState} (hg : graphEq s s') (i : Nat) :
    closure s i = closure s' i := closureAux_congr hg i i

theorem wait_for_computes {s : SchedState} (hR : Reachable s) {h : Handle}
    (hh : h.tid < s.tasks.length) :
    (wait_for s h).2 = some (evalD s (h.tid + 1) h.tid) := by
  have hI' : Inv (waitForAux s h.tid s.tasks.length) :=
    inv_reachable (reachable_waitForAux hR h.tid s.tasks.length)
  have hcs := wait_for_closureSettled hR hh
  have hmem : h.tid ∈ closure (wait_for s h).1 h.tid := self_mem_closureAux _ _ _
  have hsettled : isSettled (wait_for s h).1 h.tid = true := by
    have := List.all_eq_true.mp hcs h.tid hmem
    simpa using this
  obtain ⟨t, ht, hst⟩ := isSettled_iff.mp hsettled
  have hres : t.result = some (evalD (wait_for s h).1 (h.tid + 1) h.tid) :=
    hI'.resultEval h.tid t ht hst
  have heq : evalD (wait_for s h).1 (h.tid + 1) h.tid = evalD s (h.tid + 1) h.tid :=
    (evalD_congr (graphEq_waitForAux s h.tid s.tasks.length) (h.tid + 1) h.tid).symm
  show resultOf (wait_for s h).1 h.tid = some (evalD s (h.tid + 1) h.tid)
  unfold resultOf
  show ((taskAt (wait_for s h).1 h.tid).bind Task.result) = _
  rw [show taskAt (wait_for s h).1 h.tid = some t from ht, Option.some_bind, hres, heq]

theorem submit_length (s : SchedState) (op : List Int → Except String Int)
    (ins : List Handle) :
    (submit s op ins).1.tasks.length = s.tasks.length + 1 := by
  unfold submit
  by_cases h1 : (ins.map Handle.tid).any (fun j => isFailed s j)
  · simp [h1]
  · by_cases h2 : (ins.map Handle.tid).all (fun j => isDone s j) <;> simp [h1, h2]

theorem submit_handle (s : SchedState) (op : List Int → Except String Int)
    (ins : List Handle) : (submit s op ins).2 = ⟨s.tasks.length⟩ := by
  unfold submit
  by_cases h1 : (ins.map Handle.tid).any (fun j => isFailed s j)
  · simp [h1]
  · by_cases h2 : (ins.map Handle.tid).all (fun j => isDone s j) <;> simp [h1, h2]

theorem submit_log (s : SchedState) (op : List Int → Except String Int)
    (ins : List Handle) : (submit s op ins).1.log = s.log := by
  unfold submit
  by_cases h1 : (ins.map Handle.tid).any (fun j => isFailed s j)
  · simp [h1]
  · by_cases h2 : (ins.map Handle.tid).all (fun j => isDone s j) <;> simp [h1, h2]

theorem submit_cases (s : SchedState) (op : List Int → Except String Int)
    (ins : List Handle) :
    ∃ st res q, (submit s op ins).1 =
      ⟨s.tasks ++ [⟨s.tasks.length, op, ins.map Handle.tid, st, res, false⟩],
        q, s.log⟩ ∧ (q = s.queue ∨ q = s.queue ++ [s.tasks.length]) := by
  by_cases h1 : (ins.map Handle.tid).any (fun j => isFailed s j)
  · exact ⟨Status.failed, some (Except.error TaskError.dependencyFailure), s.queue,
      by simp [submit, h1], Or.inl rfl⟩
  · by_cases h2 : (ins.map Handle.tid).all (fun j => isDone s j)
    · exact ⟨Status.ready, none, s.queue ++ [s.tasks.length],
        by simp [submit, h1, h2], Or.inr rfl⟩
    · exact ⟨Status.pending, none, s.queue, by simp [submit, h1, h2], Or.inl rfl⟩

theorem submit_taskAt_lt (s : SchedState) (op : List Int → Except String Int)
    (ins : List Handle) {j : Nat} (hj : j < s.tasks.length) :
    taskAt (submit s op ins).1 j = taskAt s j := by
  obtain ⟨st, res, q, he, _⟩ := submit_cases s op ins
  rw [he]
  show (s.tasks ++ _)[j]? = s.tasks[j]?
  exact List.getElem?_append_left hj

theorem submit_new (s : SchedState) (op : List Int → Except String Int)
    (ins : List Handle) :
    ∃ st res, taskAt (submit s op ins).1 s.tasks.length =
      some ⟨s.tasks.length, op, ins.map Handle.tid, st, res, false⟩ := by
  obtain ⟨st, res, q, he, _⟩ := submit_cases s op ins
  refine ⟨st, res, ?_⟩
  rw [he]
  show (s.tasks ++ _)[s.tasks.length]? = _
  exact List.getElem?_concat_length _ _

theorem evalD_submit_new {s : SchedState} (hP : PreInv s)
    (op : List Int → Except String Int) (ins : List Handle)
    (hlt : ∀ h ∈ ins, h.tid < s.tasks.length) :
    evalD (submit s op ins).1 (s.tasks.length + 1) s.tasks.length =
      match seqInputs (fun j => evalD s s.tasks.length j) (ins.map Handle.tid) with
      | Except.ok vs =>
        match op vs with
        | Except.ok v => Except.ok v
        | Except.error e => Except.error (TaskError.taskFailure e)
      | Except.error _ => Except.error TaskError.dependencyFailure := by
  obtain ⟨st, res, hnew⟩ := submit_new s op ins
  have hseq : seqInputs (fun j => evalD (submit s op ins).1 s.tasks.length j)
      (ins.map Handle.tid) =
      seqInputs (fun j => evalD s s.tasks.length j) (ins.map Handle.tid) := by
    refine seqInputs_congr (fun j hj => ?_)
    obtain ⟨h, hh, rfl⟩ := List.mem_map.mp hj
    exact evalD_append hP.inputsLt
      (fun k hk => submit_taskAt_lt s op ins hk) s.tasks.length h.tid (hlt h hh)
  rw [evalD, hnew]
  show (match seqInputs (fun j => evalD (submit s op ins).1 s.tasks.length j)
      (ins.map Handle.tid) with
    | Except.ok vs =>
      match op vs with
      | Except.ok v => Except.ok v
      | Except.error e => Except.error (TaskError.taskFailure e)
    | Except.error _ => Except.error TaskError.dependencyFailure) = _
  rw [hseq]

theorem chain_length (init : Int) : ∀ n, (chain init n).1.tasks.length = n + 1 := by
  intro n
  induction n with
  | zero =>
    show (submit initState (constOp init) []).1.tasks.length = 1
    rw [submit_length]
    rfl
  | succ n ih =>
    show (submit (chain init n).1 incOp [(chain init n).2]).1.tasks.length = n + 2
    rw [submit_length, ih]

theorem chain_handle (init : Int) : ∀ n, (chain init n).2 = ⟨n⟩ := by
  intro n
  cases n with
  | zero =>
    show (submit initState (constOp init) []).2 = ⟨0⟩
    rw [submit_handle]
    rfl
  | succ n =>
    show (submit (chain init n).1 incOp [(chain init n).2]).2 = ⟨n + 1⟩
    rw [submit_handle, chain_length]

theorem chain_reachable (init : Int) : ∀ n, Reachable (chain init n).1 := by
  intro n
  induction n with
  | zero =>
    exact Reachable.submit (constOp init) [] (by intro h hh; cases hh) Reachable.init
  | succ n ih =>
    refine Reachable.submit incOp [(chain init n).2] ?_ ih
    intro h hh
    rw [List.mem_singleton.mp hh, chain_handle, chain_length]
    show n < n + 1
    omega

theorem chain_eval (init : Int) : ∀ n,
    evalD (chain init n).1 (n + 1) n = Except.ok (init + n) := by
  intro n
  induction n with
  | zero =>
    show evalD (submit initState (constOp init) []).1 (0 + 1) 0 = Except.ok (init + 0)
    rw [add_zero]
    rfl
  | succ n ih =>
    have hlen : (chain init n).1.tasks.length = n + 1 := chain_length init n
    have hR : Reachable (chain init n).1 := chain_reachable init n
    have hP : PreInv (chain init n).1 := (inv_reachable hR).toPreInv
    have hins : ∀ h ∈ [(chain init n).2], h.tid < (chain init n).1.tasks.length := by
      intro h hh
      rw [List.mem_singleton.mp hh, chain_handle, hlen]
      show n < n + 1
      omega
    have hkey := evalD_submit_new hP incOp [(chain init n).2] hins
    rw [hlen] at hkey
    show evalD (submit (chain init n).1 incOp [(chain init n).2]).1
      (n + 1 + 1) (n + 1) = Except.ok (init + (n + 1 : Nat))
    rw [hkey]
    have hmap : ([(chain init n).2]).map Handle.tid = [n] := by
      rw [chain_handle]
      rfl
    rw [hmap]
    have hn1 : evalD (chain init n).1 (n + 1) n = Except.ok (init + n) := ih
    have hseq : seqInputs (fun j => evalD (chain init n).1 (n + 1) j) [n] =
        Except.ok [init + n] := by
      unfold seqInputs
      rw [hn1]
      rfl
    rw [hseq]
    show Except.ok ((init + n) + 1) = Except.ok (init + (n + 1 : Nat))
    push_cast
    ring_nf

theorem wait_all_computes {s : SchedState} (hR : Reachable s) :
    ∀ i, i < s.tasks.length →
      resultOf (wait_all s) i = some (evalD s (i + 1) i) := by
  intro i hi
  have hI' : Inv (wait_all s) := inv_reachable (reachable_stepN hR s.tasks.length)
  have hdrain := wait_all_drains hR
  have hlen : (wait_all s).tasks.length = s.tasks.length := stepN_length s _
  have hi' : i < (wait_all s).tasks.length := by omega
  have ht : taskAt (wait_all s) i = some ((wait_all s).tasks[i]) :=
    List.getElem?_eq_getElem hi'
  have hst := hdrain.2 i _ ht
  have hres := hI'.resultEval i _ ht hst
  have heq : evalD (wait_all s) (i + 1) i = evalD s (i + 1) i :=
    (evalD_congr (graphEq_stepN s s.tasks.length) (i + 1) i).symm
  unfold resultOf
  rw [ht, Option.some_bind, hres, heq]

theorem step_queue_suffix {s : SchedState} {i : Nat} {rest : List Nat}
    (hq : s.queue = i :: rest) : ∃ add, (step s).queue = rest ++ add := by
  rw [step_cons hq]
  obtain ⟨add, h⟩ := recheckList_queue (execTask { s with queue := rest } i)
    (List.range (execTask { s with queue := rest } i).tasks.length)
  refine ⟨add, ?_⟩
  show (recheckList _ _).queue = rest ++ add
  rw [h, execTask_queue]

theorem directDep_congr {s s' : SchedState} (hg : graphEq s s') {b j : Nat}
    (h : directDep s b j) : directDep s' b j := by
  obtain ⟨t, ht, hj⟩ := h
  have hin := (hg b).2
  rcases ht' : taskAt s' b with _ | t'
  · rw [ht, ht'] at hin
    simp at hin
  · rw [ht, ht'] at hin
    simp only [Option.map_some'] at hin
    refine ⟨t', ht', ?_⟩
    rw [← Option.some.inj hin]
    exact hj

theorem dependsOn_congr {s s' : SchedState} (hg : graphEq s s') {b a : Nat}
    (h : DependsOn s b a) : DependsOn s' b a := by
  induction h with
  | direct hd => exact DependsOn.direct (directDep_congr hg hd)
  | tail hd _ ih => exact DependsOn.tail (directDep_congr hg hd) ih

theorem dependsOn_done_of_exec {s : SchedState} (hP : PreInv s) {b a : Nat}
    (h : DependsOn s b a) :
    ∀ tb, taskAt s b = some tb → tb.executed = true → isDone s a = true := by
  induction h with
  | direct hd =>
    intro tb htb hx
    obtain ⟨t, ht, hj⟩ := hd
    rw [htb] at ht
    cases Option.some.inj ht
    exact hP.execInputsDone _ tb htb hx _ hj
  | tail hd _ ih =>
    intro tb htb hx
    obtain ⟨t, ht, hj⟩ := hd
    rw [htb] at ht
    cases Option.some.inj ht
    have hmd : isDone s _ = true := hP.execInputsDone _ tb htb hx _ hj
    obtain ⟨tm, htm, hstm⟩ := isDone_iff.mp hmd
    exact ih tm htm (hP.doneOk _ tm htm hstm).2

theorem dependsOn_logBefore {s : SchedState} (hP : PreInv s) {b a : Nat}
    (h : DependsOn s b a) :
    ∀ tb, taskAt s b = some tb → tb.executed = true → listBefore s.log a b := by
  induction h with
  | direct hd =>
    intro tb htb hx
    obtain ⟨t, ht, hj⟩ := hd
    rw [htb] at ht
    cases Option.some.inj ht
    exact hP.logOrder _ tb htb hx _ hj
  | tail hd _ ih =>
    intro tb htb hx
    obtain ⟨t, ht, hj⟩ := hd
    rw [htb] at ht
    cases Option.some.inj ht
    have hmd : isDone s _ = true := hP.execInputsDone _ tb htb hx _ hj
    obtain ⟨tm, htm, hstm⟩ := isDone_iff.mp hmd
    have h2 := hP.logOrder _ tb htb hx _ hj
    exact listBefore_trans hP.logNodup (ih tm htm (hP.doneOk _ tm htm hstm).2) h2

theorem failed_dependent {s : SchedState} (hI : Inv s) {a b : Nat} {ta tb : Task}
    (hta : taskAt s a = some ta) (hfa : ta.status = Status.failed)
    (hdep : DependsOn s b a) (htb : taskAt s b = some tb)
    (hsb : tb.status = Status.done ∨ tb.status = Status.failed) :
    tb.status = Status.failed ∧ tb.executed = false ∧
      tb.result = some (Except.error TaskError.dependencyFailure) := by
  have hnotdone : isDone s a = false := by
    cases hda : isDone s a with
    | false => rfl
    | true =>
      obtain ⟨ta2, hta2, hsta2⟩ := isDone_iff.mp hda
      rw [hta] at hta2
      cases Option.some.inj hta2
      rw [hfa] at hsta2
      cases hsta2
  have hnx : tb.executed = false := by
    cases hx : tb.executed with
    | false => rfl
    | true =>
      have := dependsOn_done_of_exec hI.toPreInv hdep tb htb hx
      rw [hnotdone] at this
      cases this
  have hbf : tb.status = Status.failed := by
    rcases hsb with h | h
    · have hx := (hI.doneOk b tb htb h).2
      rw [hnx] at hx
      cases hx
    · exact h
  exact ⟨hbf, hnx, hI.failedNoExec b tb htb hbf hnx⟩

theorem mem_closure_of_dependsOn {s : SchedState} (hP : PreInv s) {b a : Nat} :
    DependsOn s b a → ∀ f, b < f → a ∈ closureAux s f b := by
  intro h
  induction h with
  | direct hd =>
    intro f hf
    obtain ⟨t, ht, hj⟩ := hd
    obtain ⟨g, rfl⟩ : ∃ g, f = g + 1 := ⟨f - 1, by omega⟩
    simp only [closureAux, ht]
    refine List.mem_cons.mpr (Or.inr ?_)
    refine List.mem_flatMap.mpr ⟨_, hj, ?_⟩
    exact self_mem_closureAux s g _
  | tail hd h2 ih =>
    intro f hf
    obtain ⟨t, ht, hj⟩ := hd
    obtain ⟨g, rfl⟩ : ∃ g, f = g + 1 := ⟨f - 1, by omega⟩
    simp only [closureAux, ht]
    refine List.mem_cons.mpr (Or.inr ?_)
    refine List.mem_flatMap.mpr ⟨_, hj, ?_⟩
    have hjlt : _ < _ := hP.inputsLt _ t _ ht hj
    exact ih g (by omega)

theorem submit_downstream (s : SchedState) (op : List Int → Except String Int)
    {a : Nat} (hfa : isFailed s a = true) :
    (submit s op [⟨a⟩]).1.tasks.length = s.tasks.length + 1 ∧
      statusOf (submit s op [⟨a⟩]).1 s.tasks.length = some Status.failed := by
  have hany : (([⟨a⟩] : List Handle).map Handle.tid).any (fun j => isFailed s j) = true := by
    simp [hfa]
  refine ⟨submit_length s op _, ?_⟩
  have he : (submit s op [⟨a⟩]).1 =
      ⟨s.tasks ++ [⟨s.tasks.length, op, ([⟨a⟩] : List Handle).map Handle.tid,
        Status.failed, some (Except.error TaskError.dependencyFailure), false⟩],
        s.queue, s.log⟩ := by
    simp [submit, hany, hfa]
  rw [he]
  unfold statusOf
  show ((s.tasks ++ _)[s.tasks.length]?).map Task.status = _
  rw [List.getElem?_concat_length]
  rfl

theorem reachable_xyzS1 : Reachable xyzS1 :=
  Reachable.submit (constOp 1) [] (by intro h hh; cases hh) Reachable.init

theorem reachable_xyzS2 : Reachable xyzS2 :=
  Reachable.submit (constOp 1) [] (by intro h hh; cases hh) reachable_xyzS1

theorem reachable_xyzS3 : Reachable xyzS3 :=
  Reachable.submit addOp [⟨0⟩, ⟨1⟩] (by decide) reachable_xyzS2

theorem reachable_pairS : Reachable pairS :=
  Reachable.submit (constOp 2) [] (by intro h hh; cases hh)
    (Reachable.submit (constOp 1) [] (by intro h hh; cases hh) Reachable.init)

theorem reachable_failS : Reachable failS :=
  Reachable.submit addOp [⟨0⟩] (by decide)
    (Reachable.submit failOp [] (by intro h hh; cases hh) Reachable.init)

theorem reachable_xyzDone : Reachable xyzDone :=
  reachable_waitForAux reachable_xyzS3 2 xyzS3.tasks.length

theorem reachable_failDone : Reachable failDone :=
  reachable_waitForAux reachable_failS 0 failS.tasks.length

theorem wait_for_settles_closure {s : SchedState} (hR : Reachable s) {h : Handle}
    (hh : h.tid < s.tasks.length) :
    ∀ j ∈ closure s h.tid, isSettled (wait_for s h).1 j = true := by
  intro j hj
  have hcs := wait_for_closureSettled hR hh
  have hg := graphEq_waitForAux s h.tid s.tasks.length
  have hj2 : j ∈ closure (wait_for s h).1 h.tid := by
    show j ∈ closure (waitForAux s h.tid s.tasks.length) h.tid
    rw [← closure_congr hg]
    exact hj
  have := List.all_eq_true.mp hcs j hj2
  simpa using this

theorem result_some_settled {s : SchedState} (hP : PreInv s) {i : Nat} {t : Task}
    (ht : taskAt s i = some t) {r : Except TaskError Int}
    (hr : t.result = some r) :
    t.status = Status.done ∨ t.status = Status.failed := by
  rcases hcase : t.status with _ | _ | _ | _ | _
  · have := hP.resultNone i t ht (Or.inl hcase)
    rw [this] at hr
    cases hr
  · have := hP.resultNone i t ht (Or.inr hcase)
    rw [this] at hr
    cases hr
  · exact absurd hcase (hP.noRunning i t ht)
  · exact Or.inl rfl
  · exact Or.inr rfl

/-- C1: Dependency-ordering invariant: in every reachable execution
state, a task is `ready` only when every one of its declared input
handles is resolved; and for any two tasks A and B where B depends
directly or transitively on A's result, A is resolved, and appears
strictly earlier in the execution log, whenever B's operation body has
executed. -/
theorem C1_dependency_ordering :
    ∀ s : SchedState, Reachable s →
      (∀ i t, taskAt s i = some t → t.status = Status.ready →
        ∀ j ∈ t.inputs, isDone s j = true) ∧
      (∀ b a tb, DependsOn s b a → taskAt s b = some tb →
        tb.executed = true → isDone s a = true ∧ listBefore s.log a b) := by
  intro s hR
  have hI := inv_reachable hR
  refine ⟨fun i t ht hr => hI.readyInputsDone i t ht hr, ?_⟩
  intro b a tb hdep htb hx
  exact ⟨dependsOn_done_of_exec hI.toPreInv hdep tb htb hx,
    dependsOn_logBefore hI.toPreInv hdep tb htb hx⟩

/-- Witness for C1 at the concrete XYZ scenario: Z (task 2) executed,
so X (task 0) is resolved and executed strictly before Z. -/
theorem C1_dependency_ordering_witness :
    isDone xyzDone 0 = true ∧ listBefore xyzDone.log 0 2 :=
  (C1_dependency_ordering xyzDone reachable_xyzDone).2 2 0 xyzTask2
    (DependsOn.direct ⟨xyzTask2, by rfl, by decide⟩) (by rfl) (by rfl)

/-- C2: `wait_for(h)` returns only after every task in h's transitive
dependency closure is resolved or failed; and an unrelated
concurrently-queued task may remain unresolved when it returns (in the
two-independent-task state, waiting on task 0 leaves task 1 merely
`ready`). -/
theorem C2_wait_for_closure :
    (∀ (s : SchedState) (h : Handle), Reachable s → h.tid < s.tasks.length →
      ∀ j ∈ closure s h.tid, isSettled (wait_for s h).1 j = true) ∧
    statusOf (wait_for pairS ⟨0⟩).1 1 = some Status.ready :=
  ⟨fun _ _ hR hh => wait_for_settles_closure hR hh, by rfl⟩

/-- Witness for C2 at the concrete XYZ scenario: after `wait_for` on Z,
its dependency X is settled. -/
theorem C2_wait_for_closure_witness :
    isSettled (wait_for xyzS3 ⟨2⟩).1 0 = true :=
  C2_wait_for_closure.1 xyzS3 ⟨2⟩ reachable_xyzS3 (by decide) 0 (by decide)

/-- C3: `wait_all()` returns only after the queue is fully empty and no
task in the system is `pending`, `ready`, or `running`. -/
theorem C3_wait_all_drains :
    ∀ s : SchedState, Reachable s →
      (wait_all s).queue = [] ∧
      ∀ i t, taskAt (wait_all s) i = some t →
        t.status ≠ Status.pending ∧ t.status ≠ Status.ready ∧
          t.status ≠ Status.running := by
  intro s hR
  obtain ⟨hq, hst⟩ := wait_all_drains hR
  refine ⟨hq, fun i t ht => ?_⟩
  rcases hst i t ht with h | h <;> rw [h] <;>
    refine ⟨?_, ?_, ?_⟩ <;> intro hc <;> cases hc

/-- Witness for C3 at the two-independent-task state. -/
theorem C3_wait_all_drains_witness : (wait_all pairS).queue = [] :=
  (C3_wait_all_drains pairS reachable_pairS).1

/-- C4: failure propagation: if task `a` is failed, then any transitive
dependent `b` reports a `DependencyFailure` when awaited, without its
operation body ever having executed; awaiting `a` itself surfaces its
failure rather than hanging or returning a default; and a submission
downstream of the known failure is still accepted (a task is created,
immediately marked failed, never silently dropped). -/
theorem C4_failure_propagation :
    ∀ (s : SchedState) (a b : Nat), Reachable s → isFailed s a = true →
      DependsOn s b a →
      (wait_for s ⟨b⟩).2 = some (Except.error TaskError.dependencyFailure) ∧
      (∃ tb, taskAt (wait_for s ⟨b⟩).1 b = some tb ∧ tb.executed = false ∧
        tb.status = Status.failed) ∧
      (∃ e, (wait_for s ⟨a⟩).2 = some (Except.error e)) ∧
      (∀ op, (submit s op [⟨a⟩]).1.tasks.length = s.tasks.length + 1 ∧
        statusOf (submit s op [⟨a⟩]).1 s.tasks.length = some Status.failed) := by
  intro s a b hR hfa hdep
  have hI := inv_reachable hR
  obtain ⟨ta, hta, hsta⟩ := isFailed_iff.mp hfa
  have hbex : ∃ tb0, taskAt s b = some tb0 := by
    cases hdep with
    | direct hd =>
      obtain ⟨t, ht, _⟩ := hd
      exact ⟨t, ht⟩
    | tail hd _ =>
      obtain ⟨t, ht, _⟩ := hd
      exact ⟨t, ht⟩
  obtain ⟨tb0, htb0⟩ := hbex
  have hb : b < s.tasks.length := taskAt_lt htb0
  have hRb : Reachable (wait_for s ⟨b⟩).1 := reachable_waitForAux hR b s.tasks.length
  have hIb := inv_reachable hRb
  have hgb : graphEq s (wait_for s ⟨b⟩).1 := graphEq_waitForAux s b s.tasks.length
  have hta' : taskAt (wait_for s ⟨b⟩).1 a = some ta :=
    settledTask_waitForAux hR hta (Or.inr hsta) b s.tasks.length
  have hdep' : DependsOn (wait_for s ⟨b⟩).1 b a := dependsOn_congr hgb hdep
  have hbsettled : isSettled (wait_for s ⟨b⟩).1 b = true :=
    wait_for_settles_closure hR hb b (self_mem_closureAux s b b)
  obtain ⟨tb, htb, hstb⟩ := isSettled_iff.mp hbsettled
  obtain ⟨hbf, hbnx, hbres⟩ := failed_dependent hIb hta' hsta hdep' htb hstb
  refine ⟨?_, ⟨tb, htb, hbnx, hbf⟩, ?_, fun op => submit_downstream s op hfa⟩
  · show resultOf (wait_for s ⟨b⟩).1 b = _
    unfold resultOf
    rw [htb, Option.some_bind, hbres]
  · obtain ⟨e, hre⟩ := hI.failedErr a ta hta hsta
    have hta2 : taskAt (wait_for s ⟨a⟩).1 a = some ta :=
      settledTask_waitForAux hR hta (Or.inr hsta) a s.tasks.length
    refine ⟨e, ?_⟩
    show resultOf (wait_for s ⟨a⟩).1 a = some (Except.error e)
    unfold resultOf
    rw [hta2, Option.some_bind, hre]

/-- Witness for C4 at the concrete failure scenario: task 0 failed, and
awaiting its dependent task 1 yields a dependency failure. -/
theorem C4_failure_propagation_witness :
    (wait_for failDone ⟨1⟩).2 = some (Except.error TaskError.dependencyFailure) :=
  (C4_failure_propagation failDone 0 1 reachable_failDone (by decide)
    (DependsOn.direct ⟨failTask1, by rfl, by decide⟩)).1

/-- C5: every `submit(operation, inputs)` call returns the fresh Handle
synchronously and non-blockingly: exactly one new Task (and its Handle)
is created, every existing task entry is untouched, and no queued work
is executed during submission (the execution log is unchanged). -/
theorem C5_submit_nonblocking :
    ∀ (s : SchedState) (op : List Int → Except String Int) (ins : List Handle),
      (submit s op ins).1.tasks.length = s.tasks.length + 1 ∧
      (submit s op ins).2 = ⟨s.tasks.length⟩ ∧
      (∀ j, j < s.tasks.length → taskAt (submit s op ins).1 j = taskAt s j) ∧
      (submit s op ins).1.log = s.log :=
  fun s op ins => ⟨submit_length s op ins, submit_handle s op ins,
    fun _ hj => submit_taskAt_lt s op ins hj, submit_log s op ins⟩

/-- Witness for C5 at a concrete submission. -/
theorem C5_submit_nonblocking_witness :
    (submit initState (constOp 1) []).1.tasks.length = initState.tasks.length + 1 :=
  (C5_submit_nonblocking initState (constOp 1) []).1

/-- C6: queue invariant in every reachable state: the backend queue
holds only `ready` tasks (so a task with an unmet dependency is never
enqueued, only tracked), and the queue is consumed FIFO: a worker step
pops exactly the front, newly readied tasks being appended at the
back. -/
theorem C6_queue_invariant :
    ∀ s : SchedState, Reachable s →
      (∀ i ∈ s.queue, statusOf s i = some Status.ready) ∧
      (∀ i t, taskAt s i = some t → t.status ≠ Status.ready → i ∉ s.queue) ∧
      (∀ i rest, s.queue = i :: rest → ∃ extra, (step s).queue = rest ++ extra) := by
  intro s hR
  have hI := inv_reachable hR
  refine ⟨hI.queueReady, ?_, fun i rest hq => step_queue_suffix hq⟩
  intro i t ht hnr hmem
  have h1 := hI.queueReady i hmem
  unfold statusOf at h1
  rw [ht] at h1
  simp only [Option.map_some'] at h1
  exact hnr (Option.some.inj h1)

/-- Witness for C6 at the two-independent-task state. -/
theorem C6_queue_invariant_witness : statusOf pairS 0 = some Status.ready :=
  (C6_queue_invariant pairS reachable_pairS).1 0 (by decide)

/-- C7: a materializing operation on a handle is exactly `wait_for`
followed by reading the resolved value, and therefore blocks until the
handle's whole dependency chain is settled before proceeding. -/
theorem C7_materialize_blocks :
    ∀ (s : SchedState) (h : Handle),
      materialize s h = wait_for s h ∧
      (Reachable s → h.tid < s.tasks.length →
        ∀ j ∈ closure s h.tid, isSettled (materialize s h).1 j = true) :=
  fun _ _ => ⟨rfl, fun hR hh => wait_for_settles_closure hR hh⟩

/-- Witness for C7 at the concrete XYZ scenario. -/
theorem C7_materialize_blocks_witness :
    isSettled (materialize xyzS3 ⟨2⟩).1 0 = true :=
  (C7_materialize_blocks xyzS3 ⟨2⟩).2 reachable_xyzS3 (by decide) 0 (by decide)

/-- C8: scenario correctness: with X = const 1, Y = const 1,
Z = add (X, Y), `wait_for(Z)` returns 2, and Z executes only after both
X and Y (the execution log is X, Y, Z). -/
theorem C8_scenario_xyz :
    (wait_for xyzS3 ⟨2⟩).2 = some (Except.ok 2) ∧
    (wait_for xyzS3 ⟨2⟩).1.log = [0, 1, 2] ∧
    listBefore (wait_for xyzS3 ⟨2⟩).1.log 0 2 ∧
    listBefore (wait_for xyzS3 ⟨2⟩).1.log 1 2 := by
  have hlog : (wait_for xyzS3 ⟨2⟩).1.log = [0, 1, 2] := by rfl
  refine ⟨by rfl, hlog, ?_, ?_⟩
  · rw [hlog]
    exact ⟨0, 2, by omega, by rfl, by rfl⟩
  · rw [hlog]
    exact ⟨1, 2, by omega, by rfl, by rfl⟩

/-- C9: scenario correctness: after submitting 1000 chained increment
tasks on top of a constant task, with no intermediate barrier,
`wait_for` on the last handle returns the initial value plus 1000. -/
theorem C9_chain_increments :
    ∀ init : Int,
      (wait_for (chain init 1000).1 (chain init 1000).2).2 =
        some (Except.ok (init + 1000)) := by
  intro init
  have ht : (chain init 1000).2 = ⟨1000⟩ := chain_handle init 1000
  have hR := chain_reachable init 1000
  have hh : (chain init 1000).2.tid < (chain init 1000).1.tasks.length := by
    rw [ht, chain_length]
    show (1000 : Nat) < 1000 + 1
    omega
  rw [ht]
  have hc2 : (wait_for (chain init 1000).1 ⟨1000⟩).2 =
      some (evalD (chain init 1000).1 (1000 + 1) 1000) := by
    have hc := wait_for_computes hR hh
    rw [ht] at hc
    exact hc
  rw [hc2, chain_eval init 1000]
  norm_num

/-- C10: a full synchronization barrier changes only timing, never
computed values: after `wait_all`, every task's materialized result is
exactly the value determined by the submitted dependency graph alone
(its denotation, fixed at submission time), and every result that was
already available before the barrier is unchanged by it. -/
theorem C10_barrier_pure_timing :
    ∀ s : SchedState, Reachable s →
      (∀ i, i < s.tasks.length →
        resultOf (wait_all s) i = some (evalD s (i + 1) i)) ∧
      (∀ i r, resultOf s i = some r → resultOf (wait_all s) i = some r) := by
  intro s hR
  refine ⟨wait_all_computes hR, ?_⟩
  intro i r hr
  unfold resultOf at hr
  rcases ht : taskAt s i with _ | t
  · rw [ht] at hr
    cases hr
  · rw [ht, Option.some_bind] at hr
    have hst := result_some_settled (inv_reachable hR).toPreInv ht hr
    have ht2 : taskAt (wait_all s) i = some t :=
      settledTask_stepN hR ht hst s.tasks.length
    unfold resultOf
    rw [ht2, Option.some_bind]
    exact hr

/-- Witness for C10 at the two-independent-task state. -/
theorem C10_barrier_pure_timing_witness :
    resultOf (wait_all pairS) 0 = some (evalD pairS 1 0) :=
  (C10_barrier_pure_timing pairS reachable_pairS).1 0 (by decide)

end AsyncModel
